import Mathlib

/-!
Verification development for the Group-Theory-Sandbox repository.

The Python source (src/group.py, src/util.py) works on Python `str` values;
we embed words as `List Char` (`Word`), Python dicts as insertion-ordered
association lists, and Python sets as insertion-ordered duplicate-free lists.
Python's runtime exceptions (`MemoryError`, `KeyError`, `SyntaxError`,
`ValueError`) and the unbounded recursion of the completion engine are
embedded with an `Except`-valued shallow embedding over an explicit fuel
parameter; `Err.outOfFuel` is an artifact of the embedding, distinct from
every Python exception.
-/

namespace GroupSandbox

/-- Words over the generator alphabet: a Python `str` as its list of characters. -/
abbrev Word := List Char

/-- Characters of a string literal, for writing concrete words. -/
def strW (s : String) : Word := s.data

/-- ASCII lowercase test, as Python's `str.islower` behaves on single ASCII letters. -/
def isLowerAsc (c : Char) : Bool := 97 ≤ c.toNat && c.toNat ≤ 122

/-- ASCII uppercase test. -/
def isUpperAsc (c : Char) : Bool := 65 ≤ c.toNat && c.toNat ≤ 90

/-- ASCII letter test, the character class `[a-zA-Z]` of the source's regexes. -/
def isAsciiLetter (c : Char) : Bool := isLowerAsc c || isUpperAsc c

/-- ASCII digit test, the character class `\d` of the source's regexes
(restricted to ASCII, which is all the repository ever feeds them). -/
def isDigitCh (c : Char) : Bool := 48 ≤ c.toNat && c.toNat ≤ 57

/-- ASCII upper-casing of a single character (Python `str.capitalize` on one letter). -/
def toUpperAsc (c : Char) : Char := if isLowerAsc c then Char.ofNat (c.toNat - 32) else c

/-- ASCII lower-casing of a single character (Python `str.lower` on one character). -/
def toLowerAsc (c : Char) : Char := if isUpperAsc c then Char.ofNat (c.toNat + 32) else c

/-- `util.anti_cap`: case-flip of a single character.  The Python source takes a
one-character string and returns `s.capitalize()` when `s.islower()` and
`s.lower()` otherwise. -/
def anti_cap (c : Char) : Char := if isLowerAsc c then toUpperAsc c else toLowerAsc c

/-- Python slice `w[a:b]` for `0 ≤ a, b` (clamping exactly as Python does). -/
def pySlice (w : Word) (a b : Nat) : Word := (w.take b).drop a

/-- Append `x` to an insertion-ordered set unless already present
(model of Python `set.add`). -/
def addIfAbsent (l : List Word) (x : Word) : List Word :=
  if l.contains x then l else l ++ [x]

/-- Remove an element from an insertion-ordered set (model of Python `set.remove`
on our duplicate-free lists). -/
def removeElem (l : List Word) (x : Word) : List Word :=
  l.filter (fun y => y != x)

/-- Lookup in an insertion-ordered association list (Python `dict.__getitem__` /
`in` test via `Option`). -/
def dlookup : List (Word × Word) → Word → Option Word
  | [], _ => none
  | (k, v) :: rest, w => if k == w then some v else dlookup rest w

/-- `d[k] = v` on an insertion-ordered association list: updating an existing key
keeps its position, a new key is appended (Python dict semantics). -/
def dset : List (Word × Word) → Word → Word → List (Word × Word)
  | [], k, v => [(k, v)]
  | (k', v') :: rest, k, v =>
    if k' == k then (k, v) :: rest else (k', v') :: dset rest k v

/-- Python string comparison `s < t`: lexicographic by code point, a strict
prefix being smaller. -/
def wordLtB : Word → Word → Bool
  | [], [] => false
  | [], _ :: _ => true
  | _ :: _, [] => false
  | a :: as, b :: bs => decide (a.toNat < b.toNat) || (a == b && wordLtB as bs)

/-- `group.dict_sort_key_len`: the key `(len(s), s)`. -/
def dict_sort_key_len (s : Word) : Nat × Word := (s.length, s)

/-- Python comparison of two `(int, str)` tuples. -/
def pairLtB : Nat × Word → Nat × Word → Bool
  | (n₁, w₁), (n₂, w₂) => decide (n₁ < n₂) || (n₁ == n₂ && wordLtB w₁ w₂)

/-- The strict order induced by `INTEGRATE_KEY = dict_sort_key_len`:
`INTEGRATE_KEY s < INTEGRATE_KEY t` in Python. -/
def keyLtB (s t : Word) : Bool := pairLtB (dict_sort_key_len s) (dict_sort_key_len t)

/-- Python `min(l, key=INTEGRATE_KEY)` (`none` on an empty collection, where
Python raises `ValueError`). -/
def minByKey : List Word → Option Word
  | [] => none
  | x :: xs => some (xs.foldl (fun m y => if keyLtB y m then y else m) x)

/-- Does `u` occur as a substring of `w` at position `i`? -/
def subAt (u w : Word) (i : Nat) : Bool := (w.drop i).take u.length == u

/-- `util.apply_rule_once`: every result of replacing a single occurrence of
`unreduced` inside `s` by `reduced`.  Python's `str.find` loop with
`start = index + 1` enumerates every occurrence position exactly once;
the results are collected into a set (here: first-occurrence order). -/
def apply_rule_once (unreduced reduced s : Word) : List Word :=
  ((List.range (s.length + 1)).filter (subAt unreduced s)).foldl
    (fun acc i => addIfAbsent acc (s.take i ++ reduced ++ s.drop (i + unreduced.length))) []

/-- One iteration of the `for overlap in range(max_len)` loop of
`util.generate_contractions`: compare `s1[-overlap:]` with `s2[:overlap]` and
splice on success, then the same with the roles swapped.  Note that for
`overlap = 0` the Python slice `s1[-0:]` is the *whole* string `s1`, which is
modelled by the `overlap == 0` branches. -/
def contrStep (s1 s2 : Word) (acc : List Word) (overlap : Nat) : List Word :=
  let endOfS1 := if overlap == 0 then s1 else s1.drop (s1.length - overlap)
  let startOfS2 := s2.take overlap
  let acc' := if endOfS1 == startOfS2 then addIfAbsent acc (s1 ++ s2.drop overlap) else acc
  let endOfS2 := if overlap == 0 then s2 else s2.drop (s2.length - overlap)
  let startOfS1 := s1.take overlap
  if endOfS2 == startOfS1 then addIfAbsent acc' (s2 ++ s1.drop overlap) else acc'

/-- `util.generate_contractions`: the overlap loop over `range(max_len)`,
`max_len` being the length of the shorter string. -/
def generate_contractions (s1 s2 : Word) : List Word :=
  (List.range (min s1.length s2.length)).foldl (contrStep s1 s2) []

/-- The `while overlap < limit and s1[overlap] == s2[overlap]` loop of
`util.get_most_shaveds`: length of the longest common prefix, capped at `limit`
(`limit ≤ min (length s1) (length s2)` at every call site, so indexing is safe). -/
def lcpUpTo : Word → Word → Nat → Nat
  | a :: as, b :: bs, n + 1 => if a == b then lcpUpTo as bs n + 1 else 0
  | _, _, _ => 0

/-- `util.get_most_shaveds`.  The early-return test in the source is
`len(most_shaved_left_first) > 0 and len(most_shaved_left_first[1]) > 0`;
`most_shaved_left_first` is a 2-tuple, so its `len` is the constant `2` and the
first conjunct is identically true — only the second component is tested. -/
def get_most_shaveds (s1 s2 : Word) : List (Word × Word) :=
  let limit := min s1.length s2.length
  let overlapLeft := lcpUpTo s1 s2 limit
  let limitL := limit - overlapLeft
  let overlapRight := lcpUpTo s1.reverse s2.reverse limitL
  let mostShavedLeftFirst :=
    (pySlice s1 overlapLeft (s1.length - overlapRight),
     pySlice s2 overlapLeft (s2.length - overlapRight))
  if 0 < mostShavedLeftFirst.2.length then [mostShavedLeftFirst]
  else
    let limitR := min s1.length s2.length
    let overlapRightB := lcpUpTo s1.reverse s2.reverse limitR
    let limitR2 := limitR - overlapRightB
    let overlapLeftB := lcpUpTo s1 s2 limitR2
    let mostShavedRightFirst :=
      (pySlice s1 overlapLeftB (s1.length - overlapRightB),
       pySlice s2 overlapLeftB (s2.length - overlapRightB))
    if mostShavedLeftFirst == mostShavedRightFirst then [mostShavedLeftFirst]
    else [mostShavedLeftFirst, mostShavedRightFirst]

/-- Little-endian decimal digits of `n`; the first argument is structural fuel
(any value `≥ n` suffices). -/
def natDigitsAux : Nat → Nat → List Nat
  | 0, _ => []
  | fuel + 1, n => if n = 0 then [] else n % 10 :: natDigitsAux fuel (n / 10)

/-- Decimal digit characters of `n`, big-endian — Python's `str(n)` /
the `int → str` formatting used by the notation transforms. -/
def natToChars (n : Nat) : Word :=
  if n = 0 then ['0'] else (natDigitsAux n n).reverse.map (fun d => Char.ofNat (48 + d))

/-- Python `int()` on a (nonempty) string of decimal digits. -/
def digitsToNat (l : Word) : Nat := l.foldl (fun acc c => acc * 10 + (c.toNat - 48)) 0

theorem dropWhileLenLe (p : Char → Bool) (l : Word) : (l.dropWhile p).length ≤ l.length := by
  induction l with
  | nil => simp [List.dropWhile]
  | cons c rest ih =>
    simp only [List.dropWhile]
    cases p c <;> simp
    omega

/-- The core of `util.expand_notation` after `"e"` removal: the substitution
`re.sub(r"([a-zA-Z])(\d+)", letter repeated number, s)`, scanning left to right
without rescanning replacement output.  The extra `Nat` argument is structural
fuel (any value `≥ length` of the word gives the substitution's result). -/
def expandCoreAux : Nat → Word → Word
  | _, [] => []
  | 0, l => l
  | fuel + 1, c :: rest =>
    let ds := rest.takeWhile isDigitCh
    if isAsciiLetter c && !ds.isEmpty then
      List.replicate (digitsToNat ds) c ++ expandCoreAux fuel (rest.dropWhile isDigitCh)
    else c :: expandCoreAux fuel rest

/-- `expandCoreAux` at fuel `length`, which fully processes the word. -/
def expandCore (l : Word) : Word := expandCoreAux l.length l

/-- `util.expand_notation`: reject `'E'`, drop every `'e'`, expand
letter-power notation, then reject a result that is neither empty nor fully
alphabetic (Python raises `SyntaxError` in the two reject cases). -/
def expand_notationFn (s : Word) : Except Unit Word :=
  if s.contains 'E' then .error ()
  else
    let s' := s.filter (fun c => c != 'e')
    let expanded := expandCore s'
    if !expanded.isEmpty && !expanded.all isAsciiLetter then .error ()
    else .ok expanded

/-- The core of `util.compress_notation`: the substitution
`re.sub(r"([a-zA-Z])\1+", letter followed by run length, s)` — every maximal
run of length ≥ 2 of the same ASCII letter becomes the letter followed by the
decimal run length.  The extra `Nat` argument is structural fuel (any value
`≥ length` of the word gives the substitution's result). -/
def compressCoreAux : Nat → Word → Word
  | _, [] => []
  | 0, l => l
  | fuel + 1, c :: rest =>
    let run := rest.takeWhile (fun d => d == c)
    if isAsciiLetter c && !run.isEmpty then
      c :: natToChars (run.length + 1) ++ compressCoreAux fuel (rest.dropWhile (fun d => d == c))
    else c :: compressCoreAux fuel rest

/-- `compressCoreAux` at fuel `length`, which fully processes the word. -/
def compressCore (l : Word) : Word := compressCoreAux l.length l

/-- `util.compress_notation`: the empty word prints as `"e"`, otherwise
run-length compression of repeated letters. -/
def compress_notationFn (s : Word) : Word :=
  if s.isEmpty then ['e'] else compressCore s

/-- Embedded error outcomes.  `memoryError`, `keyError`, `valueError` and
`syntaxError` model the Python exceptions of the same names; `notReady` models
the "structure not yet complete" error of the query façade; `outOfFuel` is an
artifact of the fuel-bounded embedding (Python simply recurses unboundedly). -/
inductive Err where
  | memoryError
  | keyError
  | valueError
  | syntaxError
  | notReady
  | outOfFuel
deriving DecidableEq, Repr

/-- The mutable state of a `Group` object: `reps_to_sinks` (insertion-ordered
dict), `prime_reductibles`, `generator_chars` and `sinks` (sets, embedded as
insertion-ordered duplicate-free lists), and the `sink_cap` configuration. -/
structure GState where
  repsToSinks : List (Word × Word)
  primeReductibles : List Word
  generatorChars : List Char
  sinks : List Word
  sinkCap : Nat
deriving DecidableEq, Repr

/-- The blank state a `Group.__init__` starts from. -/
def emptyState (cap : Nat) : GState :=
  { repsToSinks := [], primeReductibles := [], generatorChars := [], sinks := [], sinkCap := cap }

mutual
/-- `group.find_all_reachable_representations` together with its inner
`for left in prime_reductibles` loop (`applyPrimesLoop`).  The accumulator
`acc` is the mutable `all_equivalent_reps` set.  Fuel is decremented on every
recursive call; Python's version recurses without bound. -/
def findAllReachable (fuel : Nat) (reps : List Word) (mapping : List (Word × Word))
    (primes : List Word) (acc : List Word) : Except Err (List Word) :=
  match fuel with
  | 0 => .error .outOfFuel
  | fuel + 1 =>
    match reps with
    | [] => .ok acc
    | rep :: rest =>
      if acc.contains rep then findAllReachable fuel rest mapping primes acc
      else
        let acc := acc ++ [rep]
        match dlookup mapping rep with
        | some sink => findAllReachable fuel rest mapping primes (addIfAbsent acc sink)
        | none =>
          match applyPrimesLoop fuel rep primes mapping primes acc with
          | .error e => .error e
          | .ok acc => findAllReachable fuel rest mapping primes acc

termination_by structural fuel
/-- The `for left in prime_reductibles` loop inside
`find_all_reachable_representations`. -/
def applyPrimesLoop (fuel : Nat) (rep : Word) (primesLeft : List Word)
    (mapping : List (Word × Word)) (allPrimes : List Word) (acc : List Word) :
    Except Err (List Word) :=
  match fuel with
  | 0 => .error .outOfFuel
  | fuel + 1 =>
    match primesLeft with
    | [] => .ok acc
    | left :: prest =>
      match dlookup mapping left with
      | none => .error .keyError
      | some right =>
        match findAllReachable fuel (apply_rule_once left right rep) mapping allPrimes acc with
        | .error e => .error e
        | .ok acc => applyPrimesLoop fuel rep prest mapping allPrimes acc
termination_by structural fuel
end

/-- The dict comprehension
`{prime: self.reps_to_sinks[prime] for prime in other_prime_reductibles}` of
`_should_be_prime_reductible` (`KeyError` when a prime is not a key). -/
def buildAllowedRefs (m : List (Word × Word)) : List Word → Except Err (List (Word × Word))
  | [] => .ok []
  | p :: rest =>
    match dlookup m p with
    | none => .error .keyError
    | some v =>
      match buildAllowedRefs m rest with
      | .error e => .error e
      | .ok tail => .ok ((p, v) :: tail)

/-- `Group._should_be_prime_reductible`: `rep` is prime iff its stored sink is
not reachable from `rep` using only the *other* prime reductibles.  The Python
dict accesses `reps_to_sinks[prime]` and `reps_to_sinks[rep]` raise `KeyError`
when the key is absent. -/
def shouldBePrimeReductible (fuel : Nat) (st : GState) (rep : Word) : Except Err Bool :=
  let others := st.primeReductibles.filter (fun p => p != rep)
  match buildAllowedRefs st.repsToSinks others with
  | .error e => .error e
  | .ok allowedReferences =>
    match findAllReachable fuel [rep] allowedReferences others [] with
    | .error e => .error e
    | .ok reachable =>
      match dlookup st.repsToSinks rep with
      | some target => .ok (!(reachable.contains target))
      | none => .error .keyError

/-- The `for established_prime in tuple(self.prime_reductibles)` loop of
`_process_as_potential_prime_reductible`: walk the snapshot, skipping primes
whose key is not strictly greater than `rep`'s, and evict any snapshot prime
that no longer tests prime. -/
def primeRecheckLoop (fuel : Nat) (rep : Word) : GState → List Word → Except Err GState
  | st, [] => .ok st
  | st, p :: rest =>
    if !(keyLtB rep p) then primeRecheckLoop fuel rep st rest
    else
      match shouldBePrimeReductible fuel st p with
      | .error e => .error e
      | .ok stillPrime =>
        if stillPrime then primeRecheckLoop fuel rep st rest
        else
          match st with
          | ⟨m, primes, gens, sinks, cap⟩ =>
            primeRecheckLoop fuel rep ⟨m, removeElem primes p, gens, sinks, cap⟩ rest

/-- `Group._process_as_potential_prime_reductible`: if `rep` tests prime, add
it, then walk a snapshot of the prime set and evict any rule with a strictly
larger key that no longer tests prime.  Note the early `return` when `rep`
does not test prime: an already-present `rep` is *not* removed in that case. -/
def processAsPotentialPrimeReductible (fuel : Nat) (st : GState) (rep : Word) :
    Except Err GState :=
  match shouldBePrimeReductible fuel st rep with
  | .error e => .error e
  | .ok should =>
    if !should then .ok st
    else
      match st with
      | ⟨m, primes, gens, sinks, cap⟩ =>
        let primes' := addIfAbsent primes rep
        primeRecheckLoop fuel rep ⟨m, primes', gens, sinks, cap⟩ primes'

/-- `Group._set_for_entries_with_value`: redirect every entry whose value is
`oldValue` to `newValue`, re-testing each redirected key's primality, then
swap `oldValue` for `newValue` in the sink set.  The Python `for` loop walks
the live dict (whose key list never changes during the loop) in insertion
order. -/
def redirectLoop (fuel : Nat) (oldValue newValue : Word) :
    GState → List Word → Except Err GState
  | st, [] => .ok st
  | st, k :: rest =>
    match dlookup st.repsToSinks k with
    | some v =>
      if v == oldValue then
        match st with
        | ⟨m, primes, gens, sinks, cap⟩ =>
          match processAsPotentialPrimeReductible fuel
              ⟨dset m k newValue, primes, gens, sinks, cap⟩ k with
          | .error e => .error e
          | .ok st => redirectLoop fuel oldValue newValue st rest
      else redirectLoop fuel oldValue newValue st rest
    | none => redirectLoop fuel oldValue newValue st rest

/-- `Group._set_for_entries_with_value`: the guard, the redirect walk over the
dict's (unchanging) key list, and the final sink-set swap. -/
def setForEntriesWithValue (fuel : Nat) (st : GState) (oldValue newValue : Word) :
    Except Err GState :=
  if oldValue == newValue || !(st.sinks.contains oldValue) then .ok st
  else
    match redirectLoop fuel oldValue newValue st (st.repsToSinks.map Prod.fst) with
    | .error e => .error e
    | .ok st =>
      match st with
      | ⟨m, primes, gens, sinks, cap⟩ =>
        .ok ⟨m, primes, gens, addIfAbsent (removeElem sinks oldValue) newValue, cap⟩

/-- `Group._set_entry`.  An unknown `rep` is recorded and `newReduced` joins the
sink set; a known `rep` mapped elsewhere triggers a merge via
`_set_for_entries_with_value` on the two candidate sinks ordered by
`INTEGRATE_KEY`; `MemoryError` is raised only in the `rep == newReduced`
branch, when the sink count exceeds `sink_cap`. -/
def setEntry (fuel : Nat) (st : GState) (rep newReduced : Word) : Except Err GState :=
  match dlookup st.repsToSinks rep with
  | some knownReduced =>
    if newReduced == knownReduced then .ok st
    else
      let mostLess :=
        if pairLtB (dict_sort_key_len newReduced) (dict_sort_key_len knownReduced)
        then (newReduced, knownReduced) else (knownReduced, newReduced)
      setForEntriesWithValue fuel st mostLess.2 mostLess.1
  | none =>
    match st with
    | ⟨m, primes, gens, sinks, cap⟩ =>
      let sinks' := addIfAbsent sinks newReduced
      let st' : GState := ⟨m ++ [(rep, newReduced)], primes, gens, sinks', cap⟩
      if rep == newReduced then
        if sinks'.length > cap then .error .memoryError else .ok st'
      else processAsPotentialPrimeReductible fuel st' rep

/-- The characters of the words in `reps`, in first-occurrence order — the
Python `set("".join(reps))` (whose iteration order is unspecified; the
embedding fixes first-occurrence order). -/
def charsOf (reps : List Word) : List Char :=
  (reps.foldl (· ++ ·) []).foldl (fun acc c => if acc.contains c then acc else acc ++ [c]) []

mutual
/-- `Group._integrate`: update generator chars, search all currently reachable
equivalent representations, pick the most reduced under `INTEGRATE_KEY`, then
register every reachable representation (integrating shaved versions along the
way).  Returns the updated state with the most reduced representation.
`integrate`, `updateGeneratorChars` and their inner loops are one fuel-indexed
mutual recursion (the Python functions recurse into each other without
bound). -/
def integrate (fuel : Nat) (st : GState) (reps : List Word) : Except Err (GState × Word) :=
  match fuel with
  | 0 => .error .outOfFuel
  | fuel + 1 =>
    match updateGeneratorChars fuel st reps with
    | .error e => .error e
    | .ok st =>
      match findAllReachable fuel reps st.repsToSinks st.primeReductibles [] with
      | .error e => .error e
      | .ok allRelevantEquivalentReps =>
        match minByKey allRelevantEquivalentReps with
        | none => .error .valueError
        | some mostReduced =>
          match integrateLoop fuel st mostReduced allRelevantEquivalentReps with
          | .error e => .error e
          | .ok st => .ok (st, mostReduced)

termination_by structural fuel
/-- The `for rep in all_relevant_equivalent_reps` loop of `_integrate`. -/
def integrateLoop (fuel : Nat) (st : GState) (mostReduced : Word) (reps : List Word) :
    Except Err GState :=
  match fuel with
  | 0 => .error .outOfFuel
  | fuel + 1 =>
    match reps with
    | [] => .ok st
    | rep :: rest =>
      match setEntry fuel st rep mostReduced with
      | .error e => .error e
      | .ok st =>
        if rep == mostReduced then integrateLoop fuel st mostReduced rest
        else
          match shavedLoop fuel st rep (get_most_shaveds rep mostReduced) with
          | .error e => .error e
          | .ok st => integrateLoop fuel st mostReduced rest

termination_by structural fuel
/-- The `for most_shaved in most_shaveds` loop of `_integrate`: recursively
integrate each shaved pair that actually shaved something off `rep`. -/
def shavedLoop (fuel : Nat) (st : GState) (rep : Word) (pairs : List (Word × Word)) :
    Except Err GState :=
  match fuel with
  | 0 => .error .outOfFuel
  | fuel + 1 =>
    match pairs with
    | [] => .ok st
    | (repShaved, mostReducedShaved) :: rest =>
      if rep == repShaved then shavedLoop fuel st rep rest
      else
        match integrate fuel st [repShaved, mostReducedShaved] with
        | .error e => .error e
        | .ok (st, _) => shavedLoop fuel st rep rest

termination_by structural fuel
/-- `Group._update_generator_chars`: register the individual characters of the
supplied representations. -/
def updateGeneratorChars (fuel : Nat) (st : GState) (reps : List Word) : Except Err GState :=
  match fuel with
  | 0 => .error .outOfFuel
  | fuel + 1 => genCharsLoop fuel st (charsOf reps)

termination_by structural fuel
/-- The `for g in generator_chars_in_reps` loop of `_update_generator_chars`:
each new character is added; when its case-flip counterpart is already
registered, the inverse triple `(g + g⁻¹, g⁻¹ + g, "")` is integrated. -/
def genCharsLoop (fuel : Nat) (st : GState) (cs : List Char) : Except Err GState :=
  match fuel with
  | 0 => .error .outOfFuel
  | fuel + 1 =>
    match cs with
    | [] => .ok st
    | g :: rest =>
      if st.generatorChars.contains g then genCharsLoop fuel st rest
      else
        match st with
        | ⟨m, primes, gens, sinksL, cap⟩ =>
          let st' : GState := ⟨m, primes, gens ++ [g], sinksL, cap⟩
          let gInverse := anti_cap g
          if st'.generatorChars.contains gInverse then
            match integrate fuel st' [[g, gInverse], [gInverse, g], []] with
            | .error e => .error e
            | .ok (st'', _) => genCharsLoop fuel st'' rest
          else genCharsLoop fuel st' rest
termination_by structural fuel
end

/-- `Group._determine_first_element_with_incomplete_image`: the first
`(sink, generator_char)` pair whose composition is not yet a key of the store
(iterating sinks, then generator chars, in the embedding's insertion order). -/
def determineFirstIncomplete (st : GState) : Option (Word × Char) :=
  st.sinks.findSome? (fun sink =>
    st.generatorChars.findSome? (fun g =>
      if (dlookup st.repsToSinks (sink ++ [g])).isNone then some (sink, g) else none))

/-- `Group.is_complete`: no `(sink, generator_char)` composition is missing. -/
def isComplete (st : GState) : Bool := (determineFirstIncomplete st).isNone

/-- `Group.fill_in_gaps`: while some `(sink, generator_char)` composition is
missing, integrate it as a singleton relation. -/
def fillInGaps (fuel : Nat) (st : GState) : Except Err GState :=
  match fuel with
  | 0 => .error .outOfFuel
  | fuel + 1 =>
    match determineFirstIncomplete st with
    | none => .ok st
    | some (sink, g) =>
      match integrate fuel st [sink ++ [g]] with
      | .error e => .error e
      | .ok (st, _) => fillInGaps fuel st

/-- Insertion of a word into a list sorted ascending by `INTEGRATE_KEY`. -/
def insortKey (x : Word) : List Word → List Word
  | [] => [x]
  | y :: ys => if keyLtB x y then x :: y :: ys else y :: insortKey x ys

/-- Python `sorted(l, key=INTEGRATE_KEY)`. -/
def sortByKey (l : List Word) : List Word := l.foldr insortKey []

/-- Python `set(a) == set(b)` on our duplicate-free lists. -/
def listSetEq (a b : List Word) : Bool :=
  a.all (b.contains ·) && b.all (a.contains ·)

/-- The `for contraction in contractions` loop of
`Group.integrate_combined_prime_reductibles`. -/
def integrateEach (fuel : Nat) : GState → List Word → Except Err GState
  | st, [] => .ok st
  | st, c :: rest =>
    match integrate fuel st [c] with
    | .error e => .error e
    | .ok (st, _) => integrateEach fuel st rest

/-- The `for s2 in sorted_prime_reductibles[i:]` inner loop. -/
def innerPairsLoop (fuel : Nat) (s1 : Word) : GState → List Word → Except Err GState
  | st, [] => .ok st
  | st, s2 :: rest =>
    match integrateEach fuel st (generate_contractions s1 s2) with
    | .error e => .error e
    | .ok st => innerPairsLoop fuel s1 st rest

/-- The `for i, s1 in enumerate(sorted_prime_reductibles)` outer loop. -/
def outerPairsLoop (fuel : Nat) : GState → List Word → Except Err GState
  | st, [] => .ok st
  | st, s1 :: rest =>
    match innerPairsLoop fuel s1 st (s1 :: rest) with
    | .error e => .error e
    | .ok st => outerPairsLoop fuel st rest

/-- `Group.integrate_combined_prime_reductibles`: until complete, integrate all
contractions of ordered pairs of prime reductibles; stop when a full pass
produces no new prime set. -/
def integrateCombinedPrimeReductibles (fuel : Nat) (st : GState) : Except Err GState :=
  match fuel with
  | 0 => .error .outOfFuel
  | fuel + 1 =>
    if isComplete st then .ok st
    else
      let sortedPrimes := sortByKey st.primeReductibles
      match outerPairsLoop fuel st sortedPrimes with
      | .error e => .error e
      | .ok st =>
        if listSetEq sortedPrimes st.primeReductibles then .ok st
        else integrateCombinedPrimeReductibles fuel st

/-- The list comprehension `[expand_notation(rep) for rep in reps]` of
`Group.__init__` (a `SyntaxError` aborts the construction). -/
def expandReps : List Word → Except Err (List Word)
  | [] => .ok []
  | r :: rest =>
    match expand_notationFn r with
    | .error _ => .error .syntaxError
    | .ok w =>
      match expandReps rest with
      | .error e => .error e
      | .ok ws => .ok (w :: ws)

/-- The `for reps in initial_reps_elements` loop of `Group.__init__`:
expand each representation, then integrate the collection. -/
def initLoop (fuel : Nat) : GState → List (List Word) → Except Err GState
  | st, [] => .ok st
  | st, reps :: rest =>
    match expandReps reps with
    | .error e => .error e
    | .ok expandedReps =>
      match integrate fuel st expandedReps with
      | .error e => .error e
      | .ok (st, _) => initLoop fuel st rest

/-- `Group.__init__`: start blank, integrate the identity, integrate each
supplied relation group, and, when `evaluate` is set, run the two completion
loops. -/
def groupInit (fuel : Nat) (initial : List (List Word)) (sinkCap : Nat) (evaluate : Bool) :
    Except Err GState :=
  match integrate fuel (emptyState sinkCap) [[]] with
  | .error e => .error e
  | .ok (st, _) =>
    match initLoop fuel st initial with
    | .error e => .error e
    | .ok st =>
      if evaluate then
        match integrateCombinedPrimeReductibles fuel st with
        | .error e => .error e
        | .ok st => fillInGaps fuel st
      else .ok st

/-- Modelled from the spec: `canonical_form` (spec §4.8, the query façade) is
absent from `src/` — only the completion engine is in the repository.  Per the
spec's words: it "requires completeness; if unsatisfied, fails with a
not-ready error.  Otherwise recursively splits the word at its midpoint,
canonicalizes each half (base case: a word already known to the store returns
its stored canonical form directly), concatenates the two canonical halves,
and looks up or integrates that concatenation — caching the result against the
original word".  The cache is modelled as an added store entry for the
original word. -/
def canonHelper (fuel : Nat) (st : GState) (w : Word) : Except Err (GState × Word) :=
  match fuel with
  | 0 => .error .outOfFuel
  | fuel + 1 =>
    match dlookup st.repsToSinks w with
    | some c => .ok (st, c)
    | none =>
      let mid := w.length / 2
      match canonHelper fuel st (w.take mid) with
      | .error e => .error e
      | .ok (st, c1) =>
        match canonHelper fuel st (w.drop mid) with
        | .error e => .error e
        | .ok (st, c2) =>
          match dlookup st.repsToSinks (c1 ++ c2) with
          | some c =>
            match st with
            | ⟨m, primes, gens, sinks, cap⟩ => .ok (⟨m ++ [(w, c)], primes, gens, sinks, cap⟩, c)
          | none =>
            match integrate fuel st [c1 ++ c2] with
            | .error e => .error e
            | .ok (st, c) =>
              match st with
              | ⟨m, primes, gens, sinks, cap⟩ => .ok (⟨m ++ [(w, c)], primes, gens, sinks, cap⟩, c)

/-- Modelled from the spec: the completeness precondition wrapper of
`canonical_form` (spec §4.8): a not-ready error before completion, otherwise
the recursive canonicalization `canonHelper`. -/
def canonicalForm (fuel : Nat) (st : GState) (w : Word) : Except Err (GState × Word) :=
  if !(isComplete st) then .error .notReady else canonHelper fuel st w

deriving instance DecidableEq for Except

/-! ## Shared order lemmas -/

theorem charToNatInj {a b : Char} (h : a.toNat = b.toNat) : a = b := by
  apply Char.eq_of_val_eq
  apply UInt32.eq_of_val_eq
  apply Fin.ext
  exact h

theorem wordLtB_connex : ∀ a b : Word, wordLtB a b = false → wordLtB b a = false → a = b
  | [], [], _, _ => rfl
  | [], _ :: _, h, _ => by simp [wordLtB] at h
  | _ :: _, [], _, h => by simp [wordLtB] at h
  | a :: as, b :: bs, h, h' => by
    simp only [wordLtB, Bool.or_eq_false_iff, Bool.and_eq_false_iff,
      decide_eq_false_iff_not, Nat.not_lt, beq_eq_false_iff_ne, ne_eq] at h h'
    have hab : a = b := charToNatInj (Nat.le_antisymm h'.1 h.1)
    subst hab
    rcases h.2 with h2 | h2
    · simp at h2
    · rcases h'.2 with h3 | h3
      · simp at h3
      · rw [wordLtB_connex as bs h2 h3]

theorem wordLtB_trans : ∀ a b c : Word,
    wordLtB a b = true → wordLtB b c = true → wordLtB a c = true := by
  intro a
  induction a with
  | nil =>
    intro b c hab hbc
    match b, c with
    | [], _ => simp [wordLtB] at hab
    | _ :: _, [] => simp [wordLtB] at hbc
    | _ :: _, _ :: _ => simp [wordLtB]
  | cons a as ih =>
    intro b c hab hbc
    match b, c with
    | [], _ => simp [wordLtB] at hab
    | _ :: _, [] => simp [wordLtB] at hbc
    | b :: bs, c :: cs =>
      simp only [wordLtB, Bool.or_eq_true, Bool.and_eq_true, decide_eq_true_eq,
        beq_iff_eq] at hab hbc ⊢
      rcases hab with h | ⟨rfl, h⟩
      · rcases hbc with h' | ⟨rfl, _⟩
        · exact Or.inl (Nat.lt_trans h h')
        · exact Or.inl h
      · rcases hbc with h' | ⟨rfl, h'⟩
        · exact Or.inl h'
        · exact Or.inr ⟨rfl, ih bs cs h h'⟩

theorem keyLtB_iff (a b : Word) :
    keyLtB a b = true ↔ (a.length < b.length ∨ (a.length = b.length ∧ wordLtB a b = true)) := by
  simp [keyLtB, pairLtB, dict_sort_key_len]

theorem keyLtB_connex {a b : Word} (h : keyLtB a b = false) (h' : keyLtB b a = false) :
    a = b := by
  rw [Bool.eq_false_iff, Ne, keyLtB_iff] at h h'
  push_neg at h h'
  have hlen : a.length = b.length := by omega
  exact wordLtB_connex a b (by simpa using h.2 hlen) (by simpa using h'.2 hlen.symm)

theorem keyLtB_trans {a b c : Word} (h : keyLtB a b = true) (h' : keyLtB b c = true) :
    keyLtB a c = true := by
  rw [keyLtB_iff] at h h' ⊢
  rcases h with h | ⟨hl, h⟩
  · rcases h' with h' | ⟨hl', _⟩
    · exact Or.inl (Nat.lt_trans h h')
    · exact Or.inl (hl' ▸ h)
  · rcases h' with h' | ⟨hl', h'⟩
    · exact Or.inl (hl ▸ h')
    · exact Or.inr ⟨hl.trans hl', wordLtB_trans a b c h h'⟩

theorem foldMinAux : ∀ (xs : List Word) (x : Word),
    ((xs.foldl (fun m y => if keyLtB y m then y else m) x) = x ∨
     (xs.foldl (fun m y => if keyLtB y m then y else m) x) ∈ xs) ∧
    (x = (xs.foldl (fun m y => if keyLtB y m then y else m) x) ∨
     keyLtB (xs.foldl (fun m y => if keyLtB y m then y else m) x) x = true) ∧
    (∀ z ∈ xs, z = (xs.foldl (fun m y => if keyLtB y m then y else m) x) ∨
     keyLtB (xs.foldl (fun m y => if keyLtB y m then y else m) x) z = true) := by
  intro xs
  induction xs with
  | nil => exact fun x => ⟨Or.inl rfl, Or.inl rfl, by simp⟩
  | cons y ys ih =>
    intro x
    simp only [List.foldl_cons]
    by_cases hyx : keyLtB y x = true
    · rw [if_pos hyx]
      obtain ⟨ihmem, ihseed, ihlist⟩ := ih y
      refine ⟨?_, ?_, ?_⟩
      · rcases ihmem with h | h
        · exact Or.inr (List.mem_cons.mpr (Or.inl h))
        · exact Or.inr (List.mem_cons_of_mem _ h)
      · rcases ihseed with h | h
        · exact Or.inr (h ▸ hyx)
        · exact Or.inr (keyLtB_trans h hyx)
      · intro z hz
        rcases List.mem_cons.mp hz with rfl | hz
        · exact ihseed
        · exact ihlist z hz
    · rw [if_neg hyx]
      rw [Bool.not_eq_true] at hyx
      obtain ⟨ihmem, ihseed, ihlist⟩ := ih x
      refine ⟨ihmem.imp id (List.mem_cons_of_mem _), ihseed, ?_⟩
      intro z hz
      rcases List.mem_cons.mp hz with rfl | hz
      · by_cases hxz : keyLtB x z = true
        · rcases ihseed with h | h
          · exact Or.inr (h ▸ hxz)
          · exact Or.inr (keyLtB_trans h hxz)
        · rw [Bool.not_eq_true] at hxz
          have : x = z := keyLtB_connex hxz hyx
          exact this ▸ ihseed
      · exact ihlist z hz

theorem minByKey_spec : ∀ (l : List Word) (m : Word), minByKey l = some m →
    m ∈ l ∧ ∀ x ∈ l, x = m ∨ keyLtB m x = true := by
  intro l m h
  match l, h with
  | x :: xs, h =>
    simp only [minByKey, Option.some_inj] at h
    subst h
    obtain ⟨hmem, hseed, hlist⟩ := foldMinAux xs x
    refine ⟨?_, ?_⟩
    · rcases hmem with h | h
      · rw [h]
        exact List.mem_cons_self _ _
      · exact List.mem_cons_of_mem _ h
    · intro z hz
      rcases List.mem_cons.mp hz with rfl | hz
      · exact hseed
      · exact hlist z hz
/-! ## C1: the canonical ordering -/

/-- Modelled from the spec's words (for comparison with the code's
`INTEGRATE_KEY` order): the ascending key "(count of inverse-character
occurrences, length, lexicographic value)" — uppercase characters being the
inverse characters. -/
def specOrderLtB (s t : Word) : Bool :=
  Nat.blt (s.filter isUpperAsc).length (t.filter isUpperAsc).length ||
  ((s.filter isUpperAsc).length == (t.filter isUpperAsc).length &&
   (Nat.blt s.length t.length || (s.length == t.length && wordLtB s t)))

/-- C1, counterexample: the spec's claimed order key has an inverse-count
component, the code's `INTEGRATE_KEY = dict_sort_key_len` does not.  On the
pair `"gg"` (no inverse characters, length 2) and `"H"` (one inverse
character, length 1) the two orders disagree: the spec's order prefers
`"gg"`, while the code's order (and hence the representative chosen by
`min(..., key=INTEGRATE_KEY)` in `_integrate`) prefers `"H"`. -/
theorem c1_counterexample :
    specOrderLtB (strW "gg") (strW "H") = true ∧
    keyLtB (strW "gg") (strW "H") = false ∧
    keyLtB (strW "H") (strW "gg") = true ∧
    minByKey [strW "gg", strW "H"] = some (strW "H") := by
  refine ⟨by decide, by decide, by decide, by decide⟩

/-- C1, amended: the canonical ordering used to pick class representatives
(`min` with `INTEGRATE_KEY` in `_integrate`) and to orient rules compares
words by the ascending key (length, lexicographic value) only — there is no
inverse-character-count component: for every pair of words the shorter is
smaller, and among equal-length words the lexicographically smaller is
smaller; `minByKey` returns a least element of its input under that order. -/
theorem c1_order_amended :
    (∀ a b : Word, keyLtB a b = true ↔
      (a.length < b.length ∨ (a.length = b.length ∧ wordLtB a b = true))) ∧
    (∀ (l : List Word) (m : Word), minByKey l = some m →
      m ∈ l ∧ ∀ x ∈ l, x = m ∨ keyLtB m x = true) :=
  ⟨keyLtB_iff, minByKey_spec⟩

/-- Witness for `c1_order_amended` at concrete inputs. -/
theorem c1_order_amended_witness :
    (keyLtB (strW "a") (strW "ab") = true ↔
      ((strW "a").length < (strW "ab").length ∨
       ((strW "a").length = (strW "ab").length ∧ wordLtB (strW "a") (strW "ab") = true))) ∧
    ((strW "a") ∈ [strW "b", strW "a"] ∧
      ∀ x ∈ [strW "b", strW "a"], x = strW "a" ∨ keyLtB (strW "a") x = true) :=
  ⟨c1_order_amended.1 (strW "a") (strW "ab"),
   c1_order_amended.2 [strW "b", strW "a"] (strW "a") (by decide)⟩

/-! ## C4: generate_contractions -/

theorem mem_addIfAbsent (l : List Word) (x w : Word) :
    w ∈ addIfAbsent l x ↔ (w ∈ l ∨ w = x) := by
  unfold addIfAbsent
  by_cases h : l.contains x
  · rw [if_pos h]
    have hx : x ∈ l := by simpa using h
    constructor
    · exact Or.inl
    · rintro (h' | rfl)
      · exact h'
      · exact hx
  · rw [if_neg h]
    simp [List.mem_append]

theorem mem_contrStep (s1 s2 : Word) (acc : List Word) (k : Nat) (w : Word) :
    w ∈ contrStep s1 s2 acc k ↔ w ∈ acc ∨
      ((if k = 0 then s1 else s1.drop (s1.length - k)) = s2.take k ∧ w = s1 ++ s2.drop k) ∨
      ((if k = 0 then s2 else s2.drop (s2.length - k)) = s1.take k ∧ w = s2 ++ s1.drop k) := by
  simp only [contrStep, beq_iff_eq]
  by_cases h1 : (if k = 0 then s1 else s1.drop (s1.length - k)) = s2.take k <;>
    by_cases h2 : (if k = 0 then s2 else s2.drop (s2.length - k)) = s1.take k <;>
    (simp [h1, h2, mem_addIfAbsent]; try tauto)

theorem mem_contrFold (s1 s2 : Word) : ∀ (n : Nat) (acc : List Word) (w : Word),
    w ∈ (List.range n).foldl (contrStep s1 s2) acc ↔
      w ∈ acc ∨ ∃ k, k < n ∧
        (((if k = 0 then s1 else s1.drop (s1.length - k)) = s2.take k ∧ w = s1 ++ s2.drop k) ∨
         ((if k = 0 then s2 else s2.drop (s2.length - k)) = s1.take k ∧ w = s2 ++ s1.drop k)) := by
  intro n
  induction n with
  | zero => simp
  | succ n ih =>
    intro acc w
    rw [List.range_succ, List.foldl_append, List.foldl_cons, List.foldl_nil,
      mem_contrStep, ih]
    constructor
    · rintro ((h | ⟨k, hk, hc⟩) | h | h)
      · exact Or.inl h
      · exact Or.inr ⟨k, by omega, hc⟩
      · exact Or.inr ⟨n, by omega, Or.inl h⟩
      · exact Or.inr ⟨n, by omega, Or.inr h⟩
    · rintro (h | ⟨k, hk, hc⟩)
      · exact Or.inl (Or.inl h)
      · by_cases hkn : k < n
        · exact Or.inl (Or.inr ⟨k, hkn, hc⟩)
        · have : k = n := by omega
          subst this
          rcases hc with h | h
          · exact Or.inr (Or.inl h)
          · exact Or.inr (Or.inr h)

/-- C4, amended: `generate_contractions` returns exactly the splices for
overlap lengths `k` with `1 ≤ k ≤ min(len s1, len s2) − 1`, in both
directions.  Overlap length `0` (the plain concatenations) and overlap length
`min(len s1, len s2)` are never produced: in the source, `range(max_len)`
stops one short of the shorter length, and at `overlap = 0` the slice
`s1[-0:]` is the whole of `s1`, so the intended empty-overlap check never
succeeds on nonempty inputs. -/
theorem c4_amended (s1 s2 w : Word) :
    w ∈ generate_contractions s1 s2 ↔
      ∃ k, 1 ≤ k ∧ k < min s1.length s2.length ∧
        ((s1.drop (s1.length - k) = s2.take k ∧ w = s1 ++ s2.drop k) ∨
         (s2.drop (s2.length - k) = s1.take k ∧ w = s2 ++ s1.drop k)) := by
  unfold generate_contractions
  rw [mem_contrFold]
  simp only [List.not_mem_nil, false_or]
  constructor
  · rintro ⟨k, hk, hc⟩
    match k with
    | 0 =>
      exfalso
      simp only [if_pos rfl, List.take_zero] at hc
      rcases hc with ⟨h1, _⟩ | ⟨h1, _⟩
      · subst h1
        simp at hk
      · subst h1
        simp at hk
    | k + 1 =>
      refine ⟨k + 1, by omega, hk, ?_⟩
      simpa using hc
  · rintro ⟨k, h1, hk, hc⟩
    match k, h1 with
    | k + 1, _ =>
      exact ⟨k + 1, hk, by simpa using hc⟩

/-- C4, counterexample: the claim states that the splices for every overlap
length from `0` (the plain concatenations) up to the shorter word's length are
returned; on `("ab", "cd")` the code returns the empty set — in particular the
plain concatenation `"abcd"` is missing. -/
theorem c4_counterexample :
    generate_contractions (strW "ab") (strW "cd") = [] ∧
    strW "abcd" = strW "ab" ++ strW "cd" ∧
    strW "abcd" ∉ generate_contractions (strW "ab") (strW "cd") := by
  refine ⟨by decide, by decide, by decide⟩

/-- Witness for `c4_amended` at the docstring example of the source. -/
theorem c4_amended_witness :
    strW "HrrH" ∈ generate_contractions (strW "Hrr") (strW "rrH") ↔
      ∃ k, 1 ≤ k ∧ k < min (strW "Hrr").length (strW "rrH").length ∧
        (((strW "Hrr").drop ((strW "Hrr").length - k) = (strW "rrH").take k ∧
          strW "HrrH" = strW "Hrr" ++ (strW "rrH").drop k) ∨
         ((strW "rrH").drop ((strW "rrH").length - k) = (strW "Hrr").take k ∧
          strW "HrrH" = strW "rrH" ++ (strW "Hrr").drop k)) :=
  c4_amended (strW "Hrr") (strW "rrH") (strW "HrrH")

/-! ## C5: get_most_shaveds -/

/-- C5: at the failing input `s1 = "rr"`, `s2 = "rrHrr"` the code returns only
the left-first shaved pair `("", "Hrr")` and omits the right-first pair
`("", "rrH")`; with the arguments swapped both pairs are returned.  The
early-return guard `len(most_shaved_left_first) > 0 and
len(most_shaved_left_first[1]) > 0` tests the length of the 2-tuple (constant
`2`) where the surrounding comment says "if both of the shaved representations
are non-empty" — the first component is never tested, so the function returns
early whenever the *second* component is nonempty, even though the first is
empty and the two shaving orders disagree. -/
theorem c5_shaved_at_failing_input :
    get_most_shaveds (strW "rr") (strW "rrHrr") = [(strW "", strW "Hrr")] ∧
    (strW "", strW "rrH") ∉ get_most_shaveds (strW "rr") (strW "rrHrr") ∧
    get_most_shaveds (strW "rrHrr") (strW "rr") =
      [(strW "Hrr", strW ""), (strW "rrH", strW "")] := by
  refine ⟨by decide, by decide, by decide⟩

/-! ## C6: the sink cap -/

theorem reachNoMemErr : ∀ fuel : Nat,
    (∀ reps mapping primes acc,
      findAllReachable fuel reps mapping primes acc ≠ .error .memoryError) ∧
    (∀ rep pl mapping ap acc,
      applyPrimesLoop fuel rep pl mapping ap acc ≠ .error .memoryError) := by
  intro fuel
  induction fuel with
  | zero =>
    constructor
    · intro reps mapping primes acc
      simp [findAllReachable]
    · intro rep pl mapping ap acc
      simp [applyPrimesLoop]
  | succ n ih =>
    constructor
    · intro reps mapping primes acc
      match reps with
      | [] => simp [findAllReachable]
      | rep :: rest =>
        simp only [findAllReachable]
        by_cases hc : acc.contains rep
        · simp only [hc, if_true]
          exact ih.1 _ _ _ _
        · simp only [hc, Bool.false_eq_true, if_false]
          cases hl : dlookup mapping rep with
          | some sink =>
            simp only [hl]
            exact ih.1 _ _ _ _
          | none =>
            simp only [hl]
            cases hap : applyPrimesLoop n rep primes mapping primes (acc ++ [rep]) with
            | error e =>
              simp only [hap]
              intro heq
              injection heq with he
              exact ih.2 _ _ _ _ _ (he ▸ hap)
            | ok acc' =>
              simp only [hap]
              exact ih.1 _ _ _ _
    · intro rep pl mapping ap acc
      match pl with
      | [] => simp [applyPrimesLoop]
      | left :: prest =>
        simp only [applyPrimesLoop]
        cases hl : dlookup mapping left with
        | none =>
          simp only [hl]
          intro heq
          injection heq with he
          cases he
        | some right =>
          simp only [hl]
          cases hfr : findAllReachable n (apply_rule_once left right rep) mapping ap acc with
          | error e =>
            simp only [hfr]
            intro heq
            injection heq with he
            exact ih.1 _ _ _ _ (he ▸ hfr)
          | ok acc' =>
            simp only [hfr]
            exact ih.2 _ _ _ _ _

theorem buildAllowedRefsErr (m : List (Word × Word)) :
    ∀ l e, buildAllowedRefs m l = .error e → e = .keyError := by
  intro l
  induction l with
  | nil => intro e h; simp [buildAllowedRefs] at h
  | cons p ps ih =>
    intro e h
    simp only [buildAllowedRefs] at h
    cases hp : dlookup m p with
    | none =>
      rw [hp] at h
      injection h with he
      exact he.symm
    | some v =>
      rw [hp] at h
      cases hps : buildAllowedRefs m ps with
      | error e' =>
        rw [hps] at h
        injection h with he
        exact he ▸ ih e' hps
      | ok tail =>
        rw [hps] at h
        cases h

theorem shouldBeNoMemErr (fuel : Nat) (st : GState) (rep : Word) :
    shouldBePrimeReductible fuel st rep ≠ .error .memoryError := by
  unfold shouldBePrimeReductible
  cases hm : buildAllowedRefs st.repsToSinks (st.primeReductibles.filter (fun p => p != rep)) with
  | error e =>
    simp only [hm]
    intro heq
    injection heq with he
    subst he
    exact absurd (buildAllowedRefsErr _ _ _ hm) (by decide)
  | ok allowed =>
    simp only [hm]
    cases hfr : findAllReachable fuel [rep] allowed
        (st.primeReductibles.filter (fun p => p != rep)) [] with
    | error e =>
      simp only [hfr]
      intro heq
      injection heq with he
      exact (reachNoMemErr fuel).1 _ _ _ _ (he ▸ hfr)
    | ok reachable =>
      simp only [hfr]
      cases ht : dlookup st.repsToSinks rep with
      | some target =>
        simp only [ht]
        simp
      | none =>
        simp only [ht]
        intro heq
        injection heq with he
        cases he

theorem primeRecheckNoMemErr (fuel : Nat) (rep : Word) :
    ∀ (snap : List Word) (st : GState),
      primeRecheckLoop fuel rep st snap ≠ .error .memoryError := by
  intro snap
  induction snap with
  | nil => intro st; simp [primeRecheckLoop]
  | cons p ps ih =>
    intro st
    simp only [primeRecheckLoop]
    by_cases hk : keyLtB rep p = true
    · simp only [hk, Bool.not_true, Bool.false_eq_true, if_false]
      cases hs : shouldBePrimeReductible fuel st p with
      | error e =>
        simp only [hs]
        intro heq
        injection heq with he
        exact shouldBeNoMemErr fuel st p (he ▸ hs)
      | ok stillPrime =>
        simp only [hs]
        cases stillPrime
        · simp only [Bool.false_eq_true, if_false]
          exact ih _
        · simp only [if_true]
          exact ih _
    · rw [Bool.not_eq_true] at hk
      simp only [hk, Bool.not_false, if_true]
      exact ih _

theorem processNoMemErr (fuel : Nat) (st : GState) (rep : Word) :
    processAsPotentialPrimeReductible fuel st rep ≠ .error .memoryError := by
  unfold processAsPotentialPrimeReductible
  cases hs : shouldBePrimeReductible fuel st rep with
  | error e =>
    simp only [hs]
    intro heq
    injection heq with he
    exact shouldBeNoMemErr fuel st rep (he ▸ hs)
  | ok should =>
    simp only [hs]
    cases should
    · simp only [Bool.not_false, if_true]
      simp
    · simp only [Bool.not_true, Bool.false_eq_true, if_false]
      exact primeRecheckNoMemErr _ _ _ _

theorem redirectNoMemErr (fuel : Nat) (oldValue newValue : Word) :
    ∀ (keys : List Word) (st : GState),
      redirectLoop fuel oldValue newValue st keys ≠ .error .memoryError := by
  intro keys
  induction keys with
  | nil => intro st; simp [redirectLoop]
  | cons k ks ih =>
    intro st
    simp only [redirectLoop]
    cases hl : dlookup st.repsToSinks k with
    | none =>
      simp only [hl]
      exact ih _
    | some v =>
      simp only [hl]
      by_cases hv : (v == oldValue) = true
      · simp only [hv, if_true]
        cases hp : processAsPotentialPrimeReductible fuel
            { st with repsToSinks := dset st.repsToSinks k newValue } k with
        | error e =>
          simp only [hp]
          intro heq
          injection heq with he
          exact processNoMemErr _ _ _ (he ▸ hp)
        | ok st' =>
          simp only [hp]
          exact ih _
      · simp only [Bool.not_eq_true] at hv
        simp only [hv, Bool.false_eq_true, if_false]
        exact ih _

theorem setForNoMemErr (fuel : Nat) (st : GState) (oldValue newValue : Word) :
    setForEntriesWithValue fuel st oldValue newValue ≠ .error .memoryError := by
  unfold setForEntriesWithValue
  by_cases hg : (oldValue == newValue || !(st.sinks.contains oldValue)) = true
  · simp only [hg, if_true]
    simp
  · simp only [Bool.not_eq_true] at hg
    simp only [hg, Bool.false_eq_true, if_false]
    cases hr : redirectLoop fuel oldValue newValue st (st.repsToSinks.map Prod.fst) with
    | error e =>
      simp only [hr]
      intro heq
      injection heq with he
      exact redirectNoMemErr _ _ _ _ _ (he ▸ hr)
    | ok st' =>
      simp only [hr]
      simp

/-- C6, amended: `_set_entry` raises `MemoryError` exactly when it registers a
previously unknown representation that *is* its own reduced form (a self-map)
and the sink set, after adding that sink, exceeds `sink_cap`.  In every other
branch — in particular when a previously unknown `rep` is registered against a
*different* new sink — no cap check is performed, so the sink count can exceed
the cap without an error being raised (see the counterexample theorem), and the
raise itself happens only after the offending sink is already in the sink
set. -/
theorem c6_amended (fuel : Nat) (st : GState) (rep v : Word) :
    setEntry fuel st rep v = .error .memoryError ↔
      (dlookup st.repsToSinks rep = none ∧ rep = v ∧
       (addIfAbsent st.sinks v).length > st.sinkCap) := by
  unfold setEntry
  cases h : dlookup st.repsToSinks rep with
  | some known =>
    simp only [h]
    constructor
    · intro hc
      by_cases hv : (v == known) = true
      · rw [if_pos hv] at hc
        cases hc
      · rw [Bool.not_eq_true] at hv
        rw [if_neg (by simp [hv])] at hc
        exact absurd hc (setForNoMemErr _ _ _ _)
    · rintro ⟨hnone, _, _⟩
      cases hnone
  | none =>
    simp only [h]
    by_cases hv : (rep == v) = true
    · have hveq : rep = v := by simpa using hv
      rw [if_pos hv]
      by_cases hcap : (addIfAbsent st.sinks v).length > st.sinkCap
      · rw [if_pos (by simpa [hveq] using hcap)]
        simp [hveq, hcap]
      · rw [if_neg (by simpa [hveq] using hcap)]
        constructor
        · intro hc
          cases hc
        · rintro ⟨_, _, hcap'⟩
          exact absurd hcap' hcap
    · rw [if_neg hv]
      rw [Bool.not_eq_true] at hv
      constructor
      · intro hc
        exact absurd hc (processNoMemErr _ _ _)
      · rintro ⟨_, hrv, _⟩
        subst hrv
        simp at hv

/-- The state of `Group([], sink_cap=1, evaluate=False)`: only the identity is
registered and the sink cap of `1` is already reached. -/
def c6CexState : GState :=
  { repsToSinks := [(strW "", strW "")], primeReductibles := [],
    generatorChars := [], sinks := [strW ""], sinkCap := 1 }

/-- C6, counterexample: on the reachable state of
`Group([], sink_cap=1, evaluate=False)` (one sink, cap 1), registering the
previously unknown representation `"ggg"` against the new sink `"g"` returns
normally with *two* distinct sinks — exceeding the cap without raising — and
the new sink `"g"` is not a self-mapped key at that point.  The cap check in
`_set_entry` is only reached in the `rep == new_reduced` branch. -/
theorem c6_counterexample :
    groupInit 10 [] 1 false = .ok c6CexState ∧
    c6CexState.sinkCap = 1 ∧ c6CexState.sinks.length = 1 ∧
    (setEntry 10 c6CexState (strW "ggg") (strW "g")).map (fun s => s.sinks.length) =
      .ok 2 := by
  refine ⟨by decide, by decide, by decide, by decide⟩

/-- Witness for `c6_amended`: at the concrete state `c6CexState`, registering
the self-mapped representation `"g"` raises `MemoryError`, matching the
right-hand side of the equivalence. -/
theorem c6_amended_witness :
    setEntry 10 c6CexState (strW "g") (strW "g") = .error .memoryError ↔
      (dlookup c6CexState.repsToSinks (strW "g") = none ∧ strW "g" = strW "g" ∧
       (addIfAbsent c6CexState.sinks (strW "g")).length > c6CexState.sinkCap) :=
  c6_amended 10 c6CexState (strW "g") (strW "g")

/-! ## C7: completeness test and totality closure -/

theorem determineNone_iff (st : GState) :
    determineFirstIncomplete st = none ↔
      ∀ sink ∈ st.sinks, ∀ g ∈ st.generatorChars,
        (dlookup st.repsToSinks (sink ++ [g])).isSome = true := by
  unfold determineFirstIncomplete
  rw [List.findSome?_eq_none_iff]
  constructor
  · intro h sink hs g hg
    have h2 := h sink hs
    rw [List.findSome?_eq_none_iff] at h2
    have h3 := h2 g hg
    by_cases hn : (dlookup st.repsToSinks (sink ++ [g])).isNone
    · rw [if_pos hn] at h3
      cases h3
    · simpa [Option.isSome_iff_ne_none, Option.isNone_iff_eq_none] using hn
  · intro h sink hs
    rw [List.findSome?_eq_none_iff]
    intro g hg
    have h3 := h sink hs g hg
    rw [if_neg]
    simp only [Option.isNone_iff_eq_none]
    intro hn
    rw [hn] at h3
    cases h3

/-- C7: `is_complete()` is true iff every `(sink, generator-char)` composition
is a key of the equivalence store; and whenever `is_complete()` is true, a
call to `fill_in_gaps` returns the state entirely unchanged (same store, sink
set, prime set, generator set and cap). -/
theorem c7_complete_iff_and_frame (st : GState) (fuel : Nat) :
    (isComplete st = true ↔
      ∀ sink ∈ st.sinks, ∀ g ∈ st.generatorChars,
        (dlookup st.repsToSinks (sink ++ [g])).isSome = true) ∧
    (isComplete st = true → fillInGaps (fuel + 1) st = .ok st) := by
  constructor
  · rw [isComplete, Option.isNone_iff_eq_none]
    exact determineNone_iff st
  · intro hc
    rw [isComplete, Option.isNone_iff_eq_none] at hc
    simp [fillInGaps, hc]

/-- The trivial one-element group state (identity only), used as the concrete
witness input for `c7_complete_iff_and_frame`. -/
def c7TrivState : GState :=
  { repsToSinks := [(strW "", strW "")], primeReductibles := [],
    generatorChars := [], sinks := [strW ""], sinkCap := 50 }

/-- Witness for `c7_complete_iff_and_frame` at the trivial complete state. -/
theorem c7_witness :
    (isComplete c7TrivState = true ↔
      ∀ sink ∈ c7TrivState.sinks, ∀ g ∈ c7TrivState.generatorChars,
        (dlookup c7TrivState.repsToSinks (sink ++ [g])).isSome = true) ∧
    (isComplete c7TrivState = true → fillInGaps 5 c7TrivState = .ok c7TrivState) :=
  c7_complete_iff_and_frame c7TrivState 4

/-! ## C8: the cyclic group of order 3 -/

/-- The completed state of `Group([["ggg", ""]])` (cyclic group of order 3)
as computed by the engine with the embedding's deterministic iteration
order. -/
def z3State : GState :=
  { repsToSinks :=
      [(strW "", strW ""), (strW "ggg", strW ""), (strW "ggggg", strW "gg"),
       (strW "gg", strW "gg"), (strW "gggg", strW "g"), (strW "g", strW "g")],
    primeReductibles := [strW "ggg"],
    generatorChars := ['g'],
    sinks := [strW "", strW "gg", strW "g"],
    sinkCap := 50 }

/-- C8: constructing the engine with the single relation `g·g·g = identity`
and evaluation enabled terminates (returns normally within fuel 300), reports
complete, and yields exactly 3 sinks; the canonical form of `"gggg"` equals
the canonical form of `"g"` (both are `"g"`). -/
theorem c8_scenarioA :
    groupInit 300 [[strW "ggg", strW ""]] 50 true = .ok z3State ∧
    isComplete z3State = true ∧
    z3State.sinks.length = 3 ∧
    (canonicalForm 300 z3State (strW "gggg")).map Prod.snd = .ok (strW "g") ∧
    (canonicalForm 300 z3State (strW "g")).map Prod.snd = .ok (strW "g") := by
  refine ⟨by decide, by decide, by decide, by decide, by decide⟩

/-! ## C2: generator registration, counterexample run -/

/-- The state of `Group([["g"]], evaluate=False)`: the generator `g` has been
seen, but its counterpart inverse character `G` has *not* been registered and
no inverse relation has been integrated. -/
def c2CexState : GState :=
  { repsToSinks := [(strW "", strW ""), (strW "g", strW "g")],
    primeReductibles := [], generatorChars := ['g'],
    sinks := [strW "", strW "g"], sinkCap := 50 }

/-- C2, counterexample: after supplying the word `"g"` (whose counterpart `G`
has never been seen), the engine has registered only `'g'`: the counterpart
inverse character `'G'` is not in `generator_chars`, and neither `"gG"` nor
`"Gg"` is a key of the store — so `g·g⁻¹ ≡ identity` has *not* been
integrated, contrary to the claim that the counterpart is registered and the
inverse triple integrated on first encounter of `g`. -/
theorem c2_counterexample :
    groupInit 50 [[strW "g"]] 50 false = .ok c2CexState ∧
    ('g' ∈ c2CexState.generatorChars ∧ 'G' ∉ c2CexState.generatorChars) ∧
    dlookup c2CexState.repsToSinks (strW "gG") = none ∧
    dlookup c2CexState.repsToSinks (strW "Gg") = none := by
  refine ⟨by decide, by decide, by decide, by decide⟩

/-! ## C3: the prime rule set invariant, counterexample run -/

/-- The completed state of `Group([["ggg", ""], ["gg", "g"]])` (the trivial
group): the prime set still contains the rule `ggg → ""` although it is
derivable from the other prime `g → ""`. -/
def c3CexState : GState :=
  { repsToSinks :=
      [(strW "", strW ""), (strW "ggg", strW ""), (strW "gg", strW ""),
       (strW "g", strW "")],
    primeReductibles := [strW "ggg", strW "g"],
    generatorChars := ['g'],
    sinks := [strW ""],
    sinkCap := 50 }

/-- C3, counterexample: after the construction (every top-level operation
included, ending in the completion loops), the prime-reductible set is
`{ggg, g}`, yet `_should_be_prime_reductible("ggg")` is false: the stored sink
`""` of `"ggg"` *is* reachable from `"ggg"` using only the other prime
`g → ""`.  The invariant "no rule in the set is derivable from the others"
does not hold at this reachable state. -/
theorem c3_counterexample :
    groupInit 2000 [[strW "ggg", strW ""], [strW "gg", strW "g"]] 50 true =
      .ok c3CexState ∧
    strW "ggg" ∈ c3CexState.primeReductibles ∧
    shouldBePrimeReductible 2000 c3CexState (strW "ggg") = .ok false := by
  refine ⟨by decide, by decide, by decide⟩

/-! ## C9: the sink-set invariant, counterexample run -/

/-- The state of `Group([["a", "b"], ["b", "ba"]], sink_cap=10,
evaluate=False)`: the sink set is `{"", "a"}`, but `"a"` maps to `""`, not to
itself (and the stale entry `aa → a` still references it). -/
def c9CexState : GState :=
  { repsToSinks := [(strW "", strW ""), (strW "a", strW ""), (strW "b", strW ""),
                    (strW "ba", strW ""), (strW "aa", strW "a")],
    primeReductibles := [strW "b", strW "a"],
    generatorChars := ['a', 'b'],
    sinks := [strW "", strW "a"],
    sinkCap := 10 }

/-- C9, counterexample: the construction
`Group([["a", "b"], ["b", "ba"]], sink_cap=10, evaluate=False)` returns
normally in a state where `"a"` is in the tracked sink set but maps to `""`
rather than to itself — a member of the sink set that is *not* a self-mapped
key (the store also still holds `aa → a` while `a → ""`).  The "every member
of the sink set is a key that maps to itself" part of the claimed invariant
fails right after construction.  (The other two parts — sink set = image of
the store, and self-mapped keys all being sinks — do hold after every
operation; see the amended theorem.) -/
theorem c9_counterexample :
    groupInit 60 [[strW "a", strW "b"], [strW "b", strW "ba"]] 10 false =
      .ok c9CexState ∧
    strW "a" ∈ c9CexState.sinks ∧
    dlookup c9CexState.repsToSinks (strW "a") = some (strW "") := by
  refine ⟨by decide, by decide, by decide⟩

/-! ## C3 amended: what the prime-set maintenance actually guarantees -/

theorem wordLtB_irrefl : ∀ a : Word, wordLtB a a = false
  | [] => rfl
  | a :: as => by
    simp only [wordLtB, Bool.or_eq_false_iff, Bool.and_eq_false_iff]
    exact ⟨by simp, Or.inr (wordLtB_irrefl as)⟩

theorem keyLtB_irrefl (a : Word) : keyLtB a a = false := by
  rw [Bool.eq_false_iff, Ne, keyLtB_iff]
  push_neg
  refine ⟨by omega, fun _ => by simp [wordLtB_irrefl]⟩

theorem mem_removeElem (l : List Word) (x w : Word) :
    w ∈ removeElem l x ↔ (w ∈ l ∧ w ≠ x) := by
  simp [removeElem]

theorem primeRecheckLoop_spec (fuel : Nat) (rep : Word) :
    ∀ (snap : List Word) (st st' : GState),
      primeRecheckLoop fuel rep st snap = .ok st' →
      st'.repsToSinks = st.repsToSinks ∧ st'.generatorChars = st.generatorChars ∧
      st'.sinks = st.sinks ∧ st'.sinkCap = st.sinkCap ∧
      ∀ q ∈ st.primeReductibles, keyLtB rep q = false → q ∈ st'.primeReductibles := by
  intro snap
  induction snap with
  | nil =>
    intro st st' h
    simp only [primeRecheckLoop] at h
    injection h with h
    subst h
    exact ⟨rfl, rfl, rfl, rfl, fun q hq _ => hq⟩
  | cons p ps ih =>
    intro st st' h
    simp only [primeRecheckLoop] at h
    by_cases hk : keyLtB rep p = true
    · simp only [hk, Bool.not_true, Bool.false_eq_true, if_false] at h
      cases hs : shouldBePrimeReductible fuel st p with
      | error e =>
        rw [hs] at h
        cases h
      | ok stillPrime =>
        rw [hs] at h
        cases stillPrime
        · simp only [Bool.false_eq_true, if_false] at h
          obtain ⟨m, primes, gens, sinks, cap⟩ := st
          obtain ⟨h1, h2, h3, h4, h5⟩ := ih _ _ h
          refine ⟨h1, h2, h3, h4, ?_⟩
          intro q hq hlt
          apply h5
          · rw [mem_removeElem]
            refine ⟨hq, ?_⟩
            rintro rfl
            rw [hk] at hlt
            cases hlt
          · exact hlt
        · simp only [if_true] at h
          exact ih _ _ h
    · rw [Bool.not_eq_true] at hk
      simp only [hk, Bool.not_false, if_true] at h
      exact ih _ _ h

/-- C3, amended: what `_process_as_potential_prime_reductible` guarantees.  A
representation that does not test prime leaves the state entirely unchanged —
in particular a key that is *already* in the prime set and has become
derivable (for instance after being redirected to a new sink during a merge)
is re-tested but *not removed*.  A representation that does test prime is
added, and only rules with strictly larger key can be evicted by the re-check
walk; the claimed global invariant ("no rule in the set is derivable from the
others") consequently fails on reachable states (see the counterexample). -/
theorem c3_amended (fuel : Nat) (st st' : GState) (rep : Word)
    (h : processAsPotentialPrimeReductible fuel st rep = .ok st') :
    (shouldBePrimeReductible fuel st rep = .ok false → st' = st) ∧
    (shouldBePrimeReductible fuel st rep = .ok true →
      rep ∈ st'.primeReductibles ∧
      st'.repsToSinks = st.repsToSinks ∧ st'.sinks = st.sinks ∧
      ∀ q ∈ st.primeReductibles, keyLtB rep q = false → q ∈ st'.primeReductibles) := by
  unfold processAsPotentialPrimeReductible at h
  cases hs : shouldBePrimeReductible fuel st rep with
  | error e =>
    rw [hs] at h
    cases h
  | ok should =>
    rw [hs] at h
    cases should
    · simp only [Bool.not_false, if_true] at h
      injection h with h
      subst h
      constructor
      · intro _
        rfl
      · intro hc
        simp at hc
    · simp only [Bool.not_true, Bool.false_eq_true, if_false] at h
      obtain ⟨m, primes, gens, sinks, cap⟩ := st
      obtain ⟨h1, h2, h3, h4, h5⟩ := primeRecheckLoop_spec fuel rep _ _ _ h
      constructor
      · intro hc
        simp at hc
      · intro _
        refine ⟨?_, h1, h3, ?_⟩
        · apply h5
          · rw [mem_addIfAbsent]
            exact Or.inr rfl
          · exact keyLtB_irrefl rep
        · intro q hq hlt
          apply h5
          · rw [mem_addIfAbsent]
            exact Or.inl hq
          · exact hlt

/-- The tiny state used as the concrete witness input for `c3_amended`:
one generator, one prime rule `g → ""`. -/
def c3WitState : GState :=
  { repsToSinks := [(strW "", strW ""), (strW "g", strW "")],
    primeReductibles := [strW "g"], generatorChars := ['g'],
    sinks := [strW ""], sinkCap := 50 }

/-- Witness for `c3_amended` at a concrete input (where `"g"` tests prime and
processing leaves the state unchanged). -/
theorem c3_amended_witness :
    (shouldBePrimeReductible 40 c3WitState (strW "g") = .ok false →
      c3WitState = c3WitState) ∧
    (shouldBePrimeReductible 40 c3WitState (strW "g") = .ok true →
      strW "g" ∈ c3WitState.primeReductibles ∧
      c3WitState.repsToSinks = c3WitState.repsToSinks ∧
      c3WitState.sinks = c3WitState.sinks ∧
      ∀ q ∈ c3WitState.primeReductibles, keyLtB (strW "g") q = false →
        q ∈ c3WitState.primeReductibles) :=
  c3_amended 40 c3WitState c3WitState (strW "g") (by decide)

/-! ## C10: round trip of the notation transforms -/

theorem memOfDropWhile (p : Char → Bool) : ∀ (l : Word) (c : Char),
    c ∈ l.dropWhile p → c ∈ l := by
  intro l
  induction l with
  | nil => intro c h; simp [List.dropWhile] at h
  | cons x xs ih =>
    intro c h
    simp only [List.dropWhile] at h
    cases hp : p x
    · rw [hp] at h
      simpa using h
    · rw [hp] at h
      exact List.mem_cons_of_mem _ (ih c h)

theorem twAppendAll (p : Char → Bool) : ∀ (xs ys : Word), (∀ x ∈ xs, p x = true) →
    (xs ++ ys).takeWhile p = xs ++ ys.takeWhile p := by
  intro xs
  induction xs with
  | nil => simp
  | cons x xs ih =>
    intro ys h
    simp only [List.cons_append, List.takeWhile_cons, h x (List.mem_cons_self _ _), if_true]
    rw [ih ys (fun y hy => h y (List.mem_cons_of_mem _ hy))]

theorem dwAppendAll (p : Char → Bool) : ∀ (xs ys : Word), (∀ x ∈ xs, p x = true) →
    (xs ++ ys).dropWhile p = ys.dropWhile p := by
  intro xs
  induction xs with
  | nil => simp
  | cons x xs ih =>
    intro ys h
    simp only [List.cons_append, List.dropWhile_cons, h x (List.mem_cons_self _ _), if_true]
    exact ih ys (fun y hy => h y (List.mem_cons_of_mem _ hy))

theorem twHeadFalse (p : Char → Bool) : ∀ (ys : Word),
    (ys = [] ∨ ∃ y t, ys = y :: t ∧ p y = false) → ys.takeWhile p = [] := by
  rintro ys (rfl | ⟨y, t, rfl, hy⟩)
  · rfl
  · simp [List.takeWhile_cons, hy]

theorem dwHeadFalse (p : Char → Bool) : ∀ (ys : Word),
    (ys = [] ∨ ∃ y t, ys = y :: t ∧ p y = false) → ys.dropWhile p = ys := by
  rintro ys (rfl | ⟨y, t, rfl, hy⟩)
  · rfl
  · simp [List.dropWhile_cons, hy]

theorem isEmptyFalseOfNe {l : Word} (h : l ≠ []) : l.isEmpty = false := by
  cases l with
  | nil => exact absurd rfl h
  | cons x xs => rfl

theorem letterNotDigit {c : Char} (h : isAsciiLetter c = true) : isDigitCh c = false := by
  simp only [isAsciiLetter, isLowerAsc, isUpperAsc, isDigitCh, Bool.or_eq_true,
    Bool.and_eq_true, decide_eq_true_eq] at h ⊢
  rw [Bool.and_eq_false_iff]
  rcases h with ⟨h1, h2⟩ | ⟨h1, h2⟩ <;>
    (right; rw [Bool.eq_false_iff, Ne, decide_eq_true_eq]; omega)

theorem natDigitsAux_lt : ∀ (fuel n : Nat), ∀ d ∈ natDigitsAux fuel n, d < 10 := by
  intro fuel
  induction fuel with
  | zero => intro n d h; simp [natDigitsAux] at h
  | succ f ih =>
    intro n d h
    simp only [natDigitsAux] at h
    by_cases hn : n = 0
    · rw [if_pos hn] at h
      simp at h
    · rw [if_neg hn] at h
      rcases List.mem_cons.mp h with rfl | h
      · omega
      · exact ih _ _ h

theorem natDigitsAux_ne_nil {fuel n : Nat} (hn : 0 < n) (hf : n ≤ fuel) :
    natDigitsAux fuel n ≠ [] := by
  match fuel with
  | 0 => omega
  | f + 1 =>
    simp only [natDigitsAux, if_neg (by omega : ¬ n = 0)]
    simp

/-- Little-endian value of a digit list. -/
def digitsVal : List Nat → Nat
  | [] => 0
  | d :: ds => d + 10 * digitsVal ds

theorem natDigitsAux_val : ∀ (fuel n : Nat), n ≤ fuel → digitsVal (natDigitsAux fuel n) = n := by
  intro fuel
  induction fuel with
  | zero =>
    intro n h
    have : n = 0 := by omega
    subst this
    rfl
  | succ f ih =>
    intro n h
    simp only [natDigitsAux]
    by_cases hn : n = 0
    · rw [if_pos hn, hn]
      rfl
    · rw [if_neg hn]
      simp only [digitsVal]
      rw [ih (n / 10) (by omega)]
      omega

theorem foldl_digits_reverse : ∀ (le : List Nat) (acc : Nat),
    List.foldl (fun a d => a * 10 + d) acc le.reverse =
      acc * 10 ^ le.length + digitsVal le := by
  intro le
  induction le with
  | nil => intro acc; simp [digitsVal]
  | cons d ds ih =>
    intro acc
    simp only [List.reverse_cons, List.foldl_append, List.foldl_cons, List.foldl_nil, ih,
      digitsVal, List.length_cons]
    ring

theorem foldl_map_digitChar : ∀ (ds : List Nat) (acc : Nat), (∀ d ∈ ds, d < 10) →
    List.foldl (fun a c => a * 10 + (c.toNat - 48)) acc
      (ds.map (fun d => Char.ofNat (48 + d))) =
    List.foldl (fun a d => a * 10 + d) acc ds := by
  intro ds
  induction ds with
  | nil => intro acc _; rfl
  | cons d dd ih =>
    intro acc h
    simp only [List.map_cons, List.foldl_cons]
    have hd : d < 10 := h d (List.mem_cons_self _ _)
    have hchar : (Char.ofNat (48 + d)).toNat - 48 = d := by
      interval_cases d <;> decide
    rw [hchar]
    exact ih _ (fun x hx => h x (List.mem_cons_of_mem _ hx))

theorem digitsToNat_natToChars {k : Nat} (hk : 0 < k) : digitsToNat (natToChars k) = k := by
  unfold digitsToNat natToChars
  rw [if_neg (by omega)]
  rw [foldl_map_digitChar _ _ (fun d hd => natDigitsAux_lt k k d (List.mem_reverse.mp hd))]
  rw [foldl_digits_reverse, natDigitsAux_val k k (Nat.le_refl k)]
  omega

theorem natToChars_digits : ∀ {k : Nat}, 0 < k → ∀ c ∈ natToChars k, isDigitCh c = true := by
  intro k hk c hc
  unfold natToChars at hc
  rw [if_neg (by omega)] at hc
  obtain ⟨d, hd, rfl⟩ := List.mem_map.mp hc
  have : d < 10 := natDigitsAux_lt k k d (List.mem_reverse.mp hd)
  interval_cases d <;> decide

theorem natToChars_ne_nil {k : Nat} (hk : 0 < k) : natToChars k ≠ [] := by
  unfold natToChars
  rw [if_neg (by omega)]
  intro h
  rw [List.map_eq_nil_iff, List.reverse_eq_nil_iff] at h
  exact natDigitsAux_ne_nil hk (Nat.le_refl k) h

theorem expandCoreAux_nil : ∀ (f : Nat), expandCoreAux f [] = [] := by
  intro f
  cases f <;> rfl

theorem expandCoreAux_cons (f : Nat) (c : Char) (rest : Word) :
    expandCoreAux (f + 1) (c :: rest) =
      if isAsciiLetter c && !(rest.takeWhile isDigitCh).isEmpty then
        List.replicate (digitsToNat (rest.takeWhile isDigitCh)) c ++
          expandCoreAux f (rest.dropWhile isDigitCh)
      else c :: expandCoreAux f rest := rfl

theorem compressCoreAux_nil : ∀ (f : Nat), compressCoreAux f [] = [] := by
  intro f
  cases f <;> rfl

theorem compressCoreAux_cons (f : Nat) (c : Char) (rest : Word) :
    compressCoreAux (f + 1) (c :: rest) =
      if isAsciiLetter c && !(rest.takeWhile (fun d => d == c)).isEmpty then
        c :: natToChars ((rest.takeWhile (fun d => d == c)).length + 1) ++
          compressCoreAux f (rest.dropWhile (fun d => d == c))
      else c :: compressCoreAux f rest := rfl

theorem expandCoreAux_fuelInv : ∀ (f₁ f₂ : Nat) (l : Word), l.length ≤ f₁ → l.length ≤ f₂ →
    expandCoreAux f₁ l = expandCoreAux f₂ l := by
  intro f₁
  induction f₁ with
  | zero =>
    intro f₂ l h₁ _
    cases l with
    | nil => rw [expandCoreAux_nil, expandCoreAux_nil]
    | cons c rest => simp at h₁
  | succ f ih =>
    intro f₂ l h₁ h₂
    cases l with
    | nil => rw [expandCoreAux_nil, expandCoreAux_nil]
    | cons c rest =>
      cases f₂ with
      | zero => simp at h₂
      | succ f₂' =>
        rw [expandCoreAux_cons, expandCoreAux_cons]
        have hr₁ : rest.length ≤ f := by simp only [List.length_cons] at h₁; omega
        have hr₂ : rest.length ≤ f₂' := by simp only [List.length_cons] at h₂; omega
        by_cases hcond : (isAsciiLetter c && !(rest.takeWhile isDigitCh).isEmpty) = true
        · rw [if_pos hcond, if_pos hcond,
            ih f₂' (rest.dropWhile isDigitCh) (le_trans (dropWhileLenLe _ _) hr₁)
              (le_trans (dropWhileLenLe _ _) hr₂)]
        · rw [if_neg hcond, if_neg hcond, ih f₂' rest hr₁ hr₂]

theorem compressCoreAux_fuelInv : ∀ (f₁ f₂ : Nat) (l : Word), l.length ≤ f₁ → l.length ≤ f₂ →
    compressCoreAux f₁ l = compressCoreAux f₂ l := by
  intro f₁
  induction f₁ with
  | zero =>
    intro f₂ l h₁ _
    cases l with
    | nil => rw [compressCoreAux_nil, compressCoreAux_nil]
    | cons c rest => simp at h₁
  | succ f ih =>
    intro f₂ l h₁ h₂
    cases l with
    | nil => rw [compressCoreAux_nil, compressCoreAux_nil]
    | cons c rest =>
      cases f₂ with
      | zero => simp at h₂
      | succ f₂' =>
        rw [compressCoreAux_cons, compressCoreAux_cons]
        have hr₁ : rest.length ≤ f := by simp only [List.length_cons] at h₁; omega
        have hr₂ : rest.length ≤ f₂' := by simp only [List.length_cons] at h₂; omega
        by_cases hcond : (isAsciiLetter c && !(rest.takeWhile (fun d => d == c)).isEmpty) = true
        · rw [if_pos hcond, if_pos hcond,
            ih f₂' (rest.dropWhile (fun d => d == c)) (le_trans (dropWhileLenLe _ _) hr₁)
              (le_trans (dropWhileLenLe _ _) hr₂)]
        · rw [if_neg hcond, if_neg hcond, ih f₂' rest hr₁ hr₂]

theorem expandCoreAux_eq {f : Nat} {l : Word} (h : l.length ≤ f) :
    expandCoreAux f l = expandCore l :=
  expandCoreAux_fuelInv f l.length l h (Nat.le_refl _)

theorem compressCoreAux_eq {f : Nat} {l : Word} (h : l.length ≤ f) :
    compressCoreAux f l = compressCore l :=
  compressCoreAux_fuelInv f l.length l h (Nat.le_refl _)

theorem compressCore_cons (c : Char) (rest : Word) :
    compressCore (c :: rest) =
      if isAsciiLetter c && !(rest.takeWhile (fun d => d == c)).isEmpty then
        c :: natToChars ((rest.takeWhile (fun d => d == c)).length + 1) ++
          compressCoreAux rest.length (rest.dropWhile (fun d => d == c))
      else c :: compressCore rest := rfl

theorem expandCore_cons (c : Char) (rest : Word) :
    expandCore (c :: rest) =
      if isAsciiLetter c && !(rest.takeWhile isDigitCh).isEmpty then
        List.replicate (digitsToNat (rest.takeWhile isDigitCh)) c ++
          expandCoreAux rest.length (rest.dropWhile isDigitCh)
      else c :: expandCore rest := rfl

theorem memTakeWhileProp (p : Char → Bool) : ∀ (l : Word) (b : Char),
    b ∈ l.takeWhile p → p b = true := by
  intro l
  induction l with
  | nil => intro b h; simp [List.takeWhile] at h
  | cons x xs ih =>
    intro b h
    rw [List.takeWhile_cons] at h
    by_cases hx : p x = true
    · rw [if_pos hx] at h
      rcases List.mem_cons.mp h with rfl | h2
      · exact hx
      · exact ih b h2
    · rw [if_neg hx] at h
      simp at h

theorem takeWhile_eq_replicate (c : Char) (l : Word) :
    l.takeWhile (fun d => d == c) =
      List.replicate (l.takeWhile (fun d => d == c)).length c := by
  apply List.eq_replicate_of_mem
  intro b hb
  have hp : (fun d => d == c) b = true := memTakeWhileProp _ l b hb
  exact eq_of_beq hp

theorem compressCore_cons_head (c : Char) (rest : Word) :
    ∃ t, compressCore (c :: rest) = c :: t := by
  rw [compressCore_cons]
  by_cases h : (isAsciiLetter c && !(rest.takeWhile (fun d => d == c)).isEmpty) = true
  · rw [if_pos h]
    exact ⟨_, rfl⟩
  · rw [if_neg h]
    exact ⟨_, rfl⟩

theorem compressCore_digitHead (l : Word) (h : ∀ c ∈ l, isAsciiLetter c = true) :
    compressCore l = [] ∨
      ∃ y t, compressCore l = y :: t ∧ isDigitCh y = false := by
  cases l with
  | nil => exact Or.inl rfl
  | cons c rest =>
    obtain ⟨t, ht⟩ := compressCore_cons_head c rest
    exact Or.inr ⟨c, t, ht, letterNotDigit (h c (List.mem_cons_self _ _))⟩

theorem coreRoundTrip : ∀ (n : Nat) (l : Word), l.length ≤ n →
    (∀ c ∈ l, isAsciiLetter c = true) → expandCore (compressCore l) = l := by
  intro n
  induction n with
  | zero =>
    intro l h _
    cases l with
    | nil => rfl
    | cons c rest => simp at h
  | succ n ih =>
    intro l hlen hall
    cases l with
    | nil => rfl
    | cons c rest =>
      have hc : isAsciiLetter c = true := hall c (List.mem_cons_self _ _)
      have hrest : ∀ x ∈ rest, isAsciiLetter x = true :=
        fun x hx => hall x (List.mem_cons_of_mem _ hx)
      have hrlen : rest.length ≤ n := by
        simp only [List.length_cons] at hlen
        omega
      rw [compressCore_cons]
      cases hrun : rest.takeWhile (fun d => d == c) with
      | nil =>
        simp only [List.isEmpty_nil, Bool.not_true, Bool.and_false, Bool.false_eq_true,
          if_false]
        rw [expandCore_cons, twHeadFalse isDigitCh _ (compressCore_digitHead rest hrest)]
        simp only [List.isEmpty_nil, Bool.not_true, Bool.and_false, Bool.false_eq_true,
          if_false]
        rw [ih rest hrlen hrest]
      | cons y ys =>
        have hdrest : ∀ x ∈ rest.dropWhile (fun d => d == c), isAsciiLetter x = true :=
          fun x hx => hrest x (memOfDropWhile _ _ _ hx)
        have hdlen : (rest.dropWhile (fun d => d == c)).length ≤ n :=
          le_trans (dropWhileLenLe _ _) hrlen
        simp only [hc, List.isEmpty_cons, Bool.not_false, Bool.and_self, if_true]
        rw [compressCoreAux_eq (dropWhileLenLe _ _), List.cons_append, expandCore_cons,
          twAppendAll isDigitCh _ _ (natToChars_digits (Nat.succ_pos _)),
          twHeadFalse isDigitCh _ (compressCore_digitHead _ hdrest), List.append_nil,
          dwAppendAll isDigitCh _ _ (natToChars_digits (Nat.succ_pos _)),
          dwHeadFalse isDigitCh _ (compressCore_digitHead _ hdrest)]
        rw [isEmptyFalseOfNe (natToChars_ne_nil (Nat.succ_pos _))]
        simp only [hc, Bool.not_false, Bool.and_self, if_true]
        rw [digitsToNat_natToChars (Nat.succ_pos _),
          expandCoreAux_eq (by rw [List.length_append]; omega), ih _ hdlen hdrest,
          List.replicate_succ, List.cons_append]
        congr 1
        have hrepl : List.replicate (y :: ys).length c = y :: ys := by
          rw [← hrun]
          exact (takeWhile_eq_replicate c rest).symm
        rw [hrepl, ← hrun, List.takeWhile_append_dropWhile]

theorem mem_compressCoreAux : ∀ (f : Nat) (l : Word) (x : Char),
    x ∈ compressCoreAux f l → x ∈ l ∨ isDigitCh x = true := by
  intro f
  induction f with
  | zero =>
    intro l x h
    cases l with
    | nil => rw [compressCoreAux_nil] at h; simp at h
    | cons c rest => exact Or.inl h
  | succ f ih =>
    intro l x h
    cases l with
    | nil => rw [compressCoreAux_nil] at h; simp at h
    | cons c rest =>
      rw [compressCoreAux_cons] at h
      by_cases hcond : (isAsciiLetter c && !(rest.takeWhile (fun d => d == c)).isEmpty) = true
      · rw [if_pos hcond] at h
        rcases List.mem_append.mp h with h2 | h4
        · rcases List.mem_cons.mp h2 with rfl | h3
          · exact Or.inl (List.mem_cons_self _ _)
          · exact Or.inr (natToChars_digits (Nat.succ_pos _) x h3)
        · rcases ih _ x h4 with h5 | h5
          · exact Or.inl (List.mem_cons_of_mem _ (memOfDropWhile _ _ _ h5))
          · exact Or.inr h5
      · rw [if_neg hcond] at h
        rcases List.mem_cons.mp h with rfl | h2
        · exact Or.inl (List.mem_cons_self _ _)
        · rcases ih _ x h2 with h5 | h5
          · exact Or.inl (List.mem_cons_of_mem _ h5)
          · exact Or.inr h5

theorem mem_compressCore {l : Word} {x : Char} (h : x ∈ compressCore l) :
    x ∈ l ∨ isDigitCh x = true := mem_compressCoreAux l.length l x h

theorem containsFalse (a : Char) : ∀ (l : Word), a ∉ l → l.contains a = false := by
  intro l
  induction l with
  | nil => intro _; rfl
  | cons x xs ih =>
    intro h
    rw [List.contains_cons]
    have h1 : (a == x) = false := by
      rw [beq_eq_false_iff_ne]
      intro hax
      exact h (hax ▸ List.mem_cons_self _ _)
    rw [h1, Bool.false_or]
    exact ih (fun hm => h (List.mem_cons_of_mem _ hm))

theorem filterSelf (p : Char → Bool) : ∀ (l : Word), (∀ x ∈ l, p x = true) →
    l.filter p = l := by
  intro l
  induction l with
  | nil => intro _; rfl
  | cons x xs ih =>
    intro h
    rw [List.filter_cons_of_pos (h x (List.mem_cons_self _ _))]
    rw [ih (fun y hy => h y (List.mem_cons_of_mem _ hy))]

theorem expand_notationFn_ok {s : Word} (h1 : s.contains 'E' = false)
    (h2 : s.filter (fun c => c != 'e') = s)
    (h3 : (expandCore s).all isAsciiLetter = true) :
    expand_notationFn s = .ok (expandCore s) := by
  simp only [expand_notationFn, h1, Bool.false_eq_true, if_false, h2, h3, Bool.not_true,
    Bool.and_false]

/-- C10: for every word of ASCII letters containing neither `'e'` nor `'E'`,
`expand_notation (compress_notation w) = w`; moreover the empty word compresses
to `"e"` and `"e"` expands back to the empty word (spec §4.9's round trip). -/
theorem c10_roundTrip :
    (∀ w : Word, (∀ c ∈ w, isAsciiLetter c = true ∧ c ≠ 'e' ∧ c ≠ 'E') →
      expand_notationFn (compress_notationFn w) = .ok w) ∧
    compress_notationFn [] = ['e'] ∧ expand_notationFn ['e'] = .ok [] := by
  refine ⟨?_, by decide, by decide⟩
  intro w hw
  cases w with
  | nil => decide
  | cons c0 rest0 =>
    show expand_notationFn (compressCore (c0 :: rest0)) = .ok (c0 :: rest0)
    have hletters : ∀ x ∈ c0 :: rest0, isAsciiLetter x = true := fun x hx => (hw x hx).1
    have hnE : 'E' ∉ compressCore (c0 :: rest0) := by
      intro hmem
      rcases mem_compressCore hmem with h | h
      · exact (hw _ h).2.2 rfl
      · exact absurd h (by decide)
    have hnotE : (compressCore (c0 :: rest0)).contains 'E' = false :=
      containsFalse _ _ hnE
    have hnoe : (compressCore (c0 :: rest0)).filter (fun c => c != 'e') =
        compressCore (c0 :: rest0) := by
      apply filterSelf
      intro x hx
      simp only [bne_iff_ne, Ne]
      intro hxe
      subst hxe
      rcases mem_compressCore hx with h | h
      · exact (hw _ h).2.1 rfl
      · exact absurd h (by decide)
    have hcore : expandCore (compressCore (c0 :: rest0)) = c0 :: rest0 :=
      coreRoundTrip (c0 :: rest0).length _ (Nat.le_refl _) hletters
    have hall : (expandCore (compressCore (c0 :: rest0))).all isAsciiLetter = true := by
      rw [hcore, List.all_eq_true]
      exact hletters
    rw [expand_notationFn_ok hnotE hnoe hall, hcore]

theorem c10_roundTrip_witness :
    expand_notationFn (compress_notationFn (strW "HHrrrrH")) = .ok (strW "HHrrrrH") :=
  c10_roundTrip.1 (strW "HHrrrrH") (by decide)

/-! ## C9: the sink set tracks the image of the store -/

theorem containsIffMem (l : List Word) (a : Word) : l.contains a = true ↔ a ∈ l := by
  simp

theorem dlookup_dset_self : ∀ (m : List (Word × Word)) (k v : Word),
    dlookup (dset m k v) k = some v := by
  intro m k v
  induction m with
  | nil => simp [dset, dlookup]
  | cons p rest ih =>
    obtain ⟨a, b⟩ := p
    simp only [dset]
    by_cases h : (a == k) = true
    · rw [if_pos h]
      simp [dlookup]
    · rw [if_neg h]
      simp only [dlookup]
      rw [if_neg h]
      exact ih

theorem dlookup_dset_ne : ∀ (m : List (Word × Word)) (k v k' : Word), k' ≠ k →
    dlookup (dset m k v) k' = dlookup m k' := by
  intro m k v k' hne
  have hkk : (k == k') = false := by
    rw [beq_eq_false_iff_ne]
    exact fun he => hne he.symm
  induction m with
  | nil =>
    simp only [dset, dlookup, hkk, Bool.false_eq_true, if_false]
  | cons p rest ih =>
    obtain ⟨a, b⟩ := p
    simp only [dset]
    by_cases h : (a == k) = true
    · rw [if_pos h]
      have ha : a = k := eq_of_beq h
      subst ha
      simp only [dlookup, hkk, Bool.false_eq_true, if_false]
    · rw [if_neg h]
      simp only [dlookup]
      by_cases h2 : (a == k') = true
      · rw [if_pos h2, if_pos h2]
      · rw [if_neg h2, if_neg h2]
        exact ih

theorem dlookup_append_some : ∀ (m : List (Word × Word)) (r v k w : Word),
    dlookup m k = some w → dlookup (m ++ [(r, v)]) k = some w := by
  intro m r v k w
  induction m with
  | nil => intro h; simp [dlookup] at h
  | cons p rest ih =>
    obtain ⟨a, b⟩ := p
    intro h
    simp only [dlookup] at h
    simp only [List.cons_append, dlookup]
    by_cases ha : (a == k) = true
    · rw [if_pos ha] at h
      rw [if_pos ha]
      exact h
    · rw [if_neg ha] at h
      rw [if_neg ha]
      exact ih h

theorem dlookup_append_none : ∀ (m : List (Word × Word)) (r v k : Word),
    dlookup m k = none →
    dlookup (m ++ [(r, v)]) k = if r = k then some v else none := by
  intro m r v k
  induction m with
  | nil =>
    intro _
    simp only [List.nil_append, dlookup]
    by_cases h : r = k
    · rw [if_pos h, if_pos (by simpa using h)]
    · rw [if_neg (by simpa using h), if_neg h]
  | cons p rest ih =>
    obtain ⟨a, b⟩ := p
    intro h
    simp only [dlookup] at h
    simp only [List.cons_append, dlookup]
    by_cases ha : (a == k) = true
    · rw [if_pos ha] at h
      cases h
    · rw [if_neg ha] at h
      rw [if_neg ha]
      exact ih h

theorem dlookup_append_cases (m : List (Word × Word)) (r v k w : Word)
    (h : dlookup (m ++ [(r, v)]) k = some w) :
    dlookup m k = some w ∨ (dlookup m k = none ∧ r = k ∧ w = v) := by
  cases hm : dlookup m k with
  | some w' =>
    rw [dlookup_append_some m r v k w' hm] at h
    injection h with h
    exact Or.inl (by rw [h])
  | none =>
    rw [dlookup_append_none m r v k hm] at h
    by_cases hr : r = k
    · rw [if_pos hr] at h
      injection h with h
      exact Or.inr ⟨rfl, hr, h.symm⟩
    · rw [if_neg hr] at h
      cases h

theorem memKeysOfLookup : ∀ (m : List (Word × Word)) (k v : Word),
    dlookup m k = some v → k ∈ m.map Prod.fst := by
  intro m k v
  induction m with
  | nil => intro h; simp [dlookup] at h
  | cons p rest ih =>
    obtain ⟨a, b⟩ := p
    intro h
    simp only [dlookup] at h
    simp only [List.map_cons]
    by_cases ha : (a == k) = true
    · rw [if_pos ha] at h
      exact (eq_of_beq ha) ▸ List.mem_cons_self _ _
    · rw [if_neg ha] at h
      exact List.mem_cons_of_mem _ (ih h)

theorem processFrame (fuel : Nat) (st st' : GState) (rep : Word)
    (h : processAsPotentialPrimeReductible fuel st rep = .ok st') :
    st'.repsToSinks = st.repsToSinks ∧ st'.generatorChars = st.generatorChars ∧
      st'.sinks = st.sinks ∧ st'.sinkCap = st.sinkCap := by
  obtain ⟨m, primes, gens, sinksL, cap⟩ := st
  unfold processAsPotentialPrimeReductible at h
  cases hs : shouldBePrimeReductible fuel ⟨m, primes, gens, sinksL, cap⟩ rep with
  | error e => rw [hs] at h; cases h
  | ok should =>
    rw [hs] at h
    cases should with
    | false =>
      simp only [Bool.not_false, if_true] at h
      injection h with h
      subst h
      exact ⟨rfl, rfl, rfl, rfl⟩
    | true =>
      simp only [Bool.not_true, Bool.false_eq_true, if_false] at h
      exact (primeRecheckLoop_spec fuel rep _ _ _ h).imp id
        (fun h2 => ⟨h2.1, h2.2.1, h2.2.2.1⟩)

theorem redirectLoopSpec (fuel : Nat) (oldV newV : Word) (hne : oldV ≠ newV) :
    ∀ (ks : List Word) (st st' : GState),
      redirectLoop fuel oldV newV st ks = .ok st' →
      st'.generatorChars = st.generatorChars ∧ st'.sinks = st.sinks ∧
        st'.sinkCap = st.sinkCap ∧
        (∀ k, k ∈ ks → dlookup st.repsToSinks k = some oldV →
          dlookup st'.repsToSinks k = some newV) ∧
        (∀ k, dlookup st.repsToSinks k ≠ some oldV →
          dlookup st'.repsToSinks k = dlookup st.repsToSinks k) ∧
        (∀ k, dlookup st.repsToSinks k = some oldV →
          dlookup st'.repsToSinks k = some oldV ∨ dlookup st'.repsToSinks k = some newV) := by
  intro ks
  induction ks with
  | nil =>
    intro st st' h
    simp only [redirectLoop] at h
    injection h with h
    subst h
    exact ⟨rfl, rfl, rfl, fun k hk _ => absurd hk (List.not_mem_nil k),
      fun k _ => rfl, fun k hk => Or.inl hk⟩
  | cons k₀ rest ih =>
    intro st st' h
    obtain ⟨m, primes, gens, sinksL, cap⟩ := st
    simp only [redirectLoop] at h
    cases hl : dlookup m k₀ with
    | none =>
      simp only [hl] at h
      obtain ⟨e1, e2, e3, c1, c2, c3⟩ := ih _ _ h
      refine ⟨e1, e2, e3, ?_, c2, c3⟩
      intro k hk hko
      rcases List.mem_cons.mp hk with rfl | hk2
      · rw [hl] at hko; cases hko
      · exact c1 k hk2 hko
    | some v =>
      simp only [hl] at h
      by_cases hv : (v == oldV) = true
      · have hveq : v = oldV := eq_of_beq hv
        rw [if_pos hv] at h
        cases hp : processAsPotentialPrimeReductible fuel
            ⟨dset m k₀ newV, primes, gens, sinksL, cap⟩ k₀ with
        | error e => rw [hp] at h; cases h
        | ok st₂ =>
          rw [hp] at h
          obtain ⟨f1, f2, f3, f4⟩ := processFrame fuel _ st₂ k₀ hp
          obtain ⟨e1, e2, e3, c1, c2, c3⟩ := ih st₂ st' h
          refine ⟨by rw [e1, f2], by rw [e2, f3], by rw [e3, f4], ?_, ?_, ?_⟩
          · intro k hk hko
            by_cases hkk : k = k₀
            · subst hkk
              have h2 : dlookup st₂.repsToSinks k = some newV := by
                rw [f1, dlookup_dset_self]
              have h3 : dlookup st₂.repsToSinks k ≠ some oldV := by
                rw [h2]
                intro hx
                injection hx with hx
                exact hne hx.symm
              rw [c2 k h3, h2]
            · have h2 : dlookup st₂.repsToSinks k = dlookup m k := by
                rw [f1, dlookup_dset_ne _ _ _ _ hkk]
              rcases List.mem_cons.mp hk with he | hk2
              · exact absurd he hkk
              · exact c1 k hk2 (by rw [h2]; exact hko)
          · intro k hko
            by_cases hkk : k = k₀
            · subst hkk
              exact absurd (hveq ▸ hl) hko
            · have h2 : dlookup st₂.repsToSinks k = dlookup m k := by
                rw [f1, dlookup_dset_ne _ _ _ _ hkk]
              rw [c2 k (by rw [h2]; exact hko), h2]
          · intro k hko
            by_cases hkk : k = k₀
            · subst hkk
              have h2 : dlookup st₂.repsToSinks k = some newV := by
                rw [f1, dlookup_dset_self]
              have h3 : dlookup st₂.repsToSinks k ≠ some oldV := by
                rw [h2]
                intro hx
                injection hx with hx
                exact hne hx.symm
              exact Or.inr (by rw [c2 k h3, h2])
            · have h2 : dlookup st₂.repsToSinks k = dlookup m k := by
                rw [f1, dlookup_dset_ne _ _ _ _ hkk]
              exact c3 k (by rw [h2]; exact hko)
      · rw [if_neg hv] at h
        have hvne : v ≠ oldV := by
          intro he
          exact hv (by rw [he]; exact beq_self_eq_true oldV)
        obtain ⟨e1, e2, e3, c1, c2, c3⟩ := ih _ _ h
        refine ⟨e1, e2, e3, ?_, c2, c3⟩
        intro k hk hko
        rcases List.mem_cons.mp hk with rfl | hk2
        · rw [hl] at hko
          injection hko with hko
          exact absurd hko hvne
        · exact c1 k hk2 hko

/-- The sink set is exactly the image (set of values) of `reps_to_sinks`. -/
def sinkInvOn (m : List (Word × Word)) (sinksL : List Word) : Prop :=
  (∀ v ∈ sinksL, ∃ k, dlookup m k = some v) ∧
  (∀ k v, dlookup m k = some v → v ∈ sinksL)

/-- The store/sink-set invariant on a whole state. -/
def sinkInv (st : GState) : Prop := sinkInvOn st.repsToSinks st.sinks

theorem setForPreserves (fuel : Nat) (st st' : GState) (oldV newV : Word)
    (h : setForEntriesWithValue fuel st oldV newV = .ok st') (hinv : sinkInv st) :
    sinkInv st' := by
  unfold setForEntriesWithValue at h
  by_cases hg : (oldV == newV || !(st.sinks.contains oldV)) = true
  · rw [if_pos hg] at h
    injection h with h
    subst h
    exact hinv
  · rw [if_neg hg] at h
    have hne : oldV ≠ newV := by
      intro he
      exact hg (by rw [he]; simp)
    have hmem : oldV ∈ st.sinks := by
      rcases Bool.eq_false_or_eq_true (st.sinks.contains oldV) with hc | hc
      · exact (containsIffMem _ _).mp hc
      · exact absurd (by rw [hc]; simp) hg
    cases hr : redirectLoop fuel oldV newV st (st.repsToSinks.map Prod.fst) with
    | error e => rw [hr] at h; cases h
    | ok stR =>
      rw [hr] at h
      obtain ⟨m2, primes2, gens2, sinks2, cap2⟩ := stR
      obtain ⟨e1, e2, e3, c1, c2, c3⟩ :=
        redirectLoopSpec fuel oldV newV hne (st.repsToSinks.map Prod.fst) st _ hr
      have e2' : sinks2 = st.sinks := e2
      have c1' : ∀ k, k ∈ st.repsToSinks.map Prod.fst →
          dlookup st.repsToSinks k = some oldV → dlookup m2 k = some newV := c1
      have c2' : ∀ k, dlookup st.repsToSinks k ≠ some oldV →
          dlookup m2 k = dlookup st.repsToSinks k := c2
      injection h with h
      subst h
      rw [e2']
      refine ⟨?_, ?_⟩
      · intro v hv
        rw [mem_addIfAbsent] at hv
        rcases hv with hv | rfl
        · rw [mem_removeElem] at hv
          obtain ⟨k, hk⟩ := hinv.1 v hv.1
          have hne2 : dlookup st.repsToSinks k ≠ some oldV := by
            rw [hk]
            intro hx
            injection hx with hx
            exact hv.2 hx
          exact ⟨k, by rw [c2' k hne2, hk]⟩
        · obtain ⟨k, hk⟩ := hinv.1 oldV hmem
          exact ⟨k, c1' k (memKeysOfLookup _ _ _ hk) hk⟩
      · intro k v hkv
        rw [mem_addIfAbsent]
        cases holds : dlookup st.repsToSinks k with
        | none =>
          have hc2 := c2' k (by rw [holds]; intro hx; cases hx)
          rw [hc2, holds] at hkv
          cases hkv
        | some w =>
          by_cases hw : w = oldV
          · subst hw
            have h2 := c1' k (memKeysOfLookup _ _ _ holds) holds
            rw [h2] at hkv
            injection hkv with hkv
            exact Or.inr hkv.symm
          · have hne2 : dlookup st.repsToSinks k ≠ some oldV := by
              rw [holds]
              intro hx
              injection hx with hx
              exact hw hx
            rw [c2' k hne2, holds] at hkv
            injection hkv with hkv
            subst hkv
            refine Or.inl ?_
            rw [mem_removeElem]
            exact ⟨hinv.2 k w holds, hw⟩

theorem setEntryPreserves (fuel : Nat) (st st' : GState) (rep newReduced : Word)
    (h : setEntry fuel st rep newReduced = .ok st') (hinv : sinkInv st) : sinkInv st' := by
  obtain ⟨m, primes, gens, sinksL, cap⟩ := st
  unfold setEntry at h
  cases hl : dlookup m rep with
  | some known =>
    simp only [hl] at h
    by_cases he : (newReduced == known) = true
    · rw [if_pos he] at h
      injection h with h
      subst h
      exact hinv
    · rw [if_neg he] at h
      exact setForPreserves fuel _ st' _ _ h hinv
  | none =>
    simp only [hl] at h
    have hinv2 : sinkInvOn (m ++ [(rep, newReduced)]) (addIfAbsent sinksL newReduced) := by
      refine ⟨?_, ?_⟩
      · intro v hv
        rw [mem_addIfAbsent] at hv
        rcases hv with hv | rfl
        · obtain ⟨k, hk⟩ := hinv.1 v hv
          exact ⟨k, dlookup_append_some _ _ _ _ _ hk⟩
        · refine ⟨rep, ?_⟩
          rw [dlookup_append_none _ _ _ _ hl, if_pos rfl]
      · intro k v hkv
        rcases dlookup_append_cases _ _ _ _ _ hkv with hk | ⟨_, _, hv⟩
        · rw [mem_addIfAbsent]
          exact Or.inl (hinv.2 k v hk)
        · rw [mem_addIfAbsent]
          exact Or.inr hv
    by_cases hrn : (rep == newReduced) = true
    · rw [if_pos hrn] at h
      by_cases hcap : (addIfAbsent sinksL newReduced).length > cap
      · rw [if_pos hcap] at h
        cases h
      · rw [if_neg hcap] at h
        injection h with h
        subst h
        exact hinv2
    · rw [if_neg hrn] at h
      obtain ⟨f1, f2, f3, f4⟩ := processFrame fuel _ st' rep h
      unfold sinkInv sinkInvOn
      rw [f1, f3]
      exact hinv2

theorem enginePreserves : ∀ (fuel : Nat),
    (∀ st reps out, integrate fuel st reps = .ok out → sinkInv st → sinkInv out.1) ∧
    (∀ st mr reps st', integrateLoop fuel st mr reps = .ok st' → sinkInv st → sinkInv st') ∧
    (∀ st rep pairs st', shavedLoop fuel st rep pairs = .ok st' → sinkInv st → sinkInv st') ∧
    (∀ st reps st', updateGeneratorChars fuel st reps = .ok st' → sinkInv st → sinkInv st') ∧
    (∀ st cs st', genCharsLoop fuel st cs = .ok st' → sinkInv st → sinkInv st') := by
  intro fuel
  induction fuel with
  | zero =>
    refine ⟨?_, ?_, ?_, ?_, ?_⟩
    · intro st reps out h _
      simp [integrate] at h
    · intro st mr reps st' h _
      simp [integrateLoop] at h
    · intro st rep pairs st' h _
      simp [shavedLoop] at h
    · intro st reps st' h _
      simp [updateGeneratorChars] at h
    · intro st cs st' h _
      simp [genCharsLoop] at h
  | succ n ih =>
    obtain ⟨ihInt, ihLoop, ihShaved, ihUpd, ihGen⟩ := ih
    refine ⟨?_, ?_, ?_, ?_, ?_⟩
    · intro st reps out h hinv
      simp only [integrate] at h
      cases hu : updateGeneratorChars n st reps with
      | error e => simp only [hu] at h; cases h
      | ok st1 =>
        simp only [hu] at h
        cases hf : findAllReachable n reps st1.repsToSinks st1.primeReductibles [] with
        | error e => simp only [hf] at h; cases h
        | ok allR =>
          simp only [hf] at h
          cases hm : minByKey allR with
          | none => simp only [hm] at h; cases h
          | some mostRed =>
            simp only [hm] at h
            cases hil : integrateLoop n st1 mostRed allR with
            | error e => simp only [hil] at h; cases h
            | ok st2 =>
              simp only [hil] at h
              injection h with h
              subst h
              exact ihLoop st1 mostRed allR st2 hil (ihUpd st reps st1 hu hinv)
    · intro st mr reps st' h hinv
      match reps with
      | [] =>
        simp only [integrateLoop] at h
        injection h with h
        subst h
        exact hinv
      | rep :: rest =>
        simp only [integrateLoop] at h
        cases hse : setEntry n st rep mr with
        | error e => simp only [hse] at h; cases h
        | ok st1 =>
          simp only [hse] at h
          have hinv1 := setEntryPreserves n st st1 rep mr hse hinv
          by_cases hr : (rep == mr) = true
          · rw [if_pos hr] at h
            exact ihLoop st1 mr rest st' h hinv1
          · rw [if_neg hr] at h
            cases hsh : shavedLoop n st1 rep (get_most_shaveds rep mr) with
            | error e => simp only [hsh] at h; cases h
            | ok st2 =>
              simp only [hsh] at h
              exact ihLoop st2 mr rest st' h (ihShaved st1 rep _ st2 hsh hinv1)
    · intro st rep pairs st' h hinv
      match pairs with
      | [] =>
        simp only [shavedLoop] at h
        injection h with h
        subst h
        exact hinv
      | (rs, ms) :: rest =>
        simp only [shavedLoop] at h
        by_cases hr : (rep == rs) = true
        · rw [if_pos hr] at h
          exact ihShaved st rep rest st' h hinv
        · rw [if_neg hr] at h
          cases hi : integrate n st [rs, ms] with
          | error e => simp only [hi] at h; cases h
          | ok out =>
            obtain ⟨st2, w2⟩ := out
            simp only [hi] at h
            exact ihShaved st2 rep rest st' h (ihInt st [rs, ms] (st2, w2) hi hinv)
    · intro st reps st' h hinv
      simp only [updateGeneratorChars] at h
      exact ihGen st (charsOf reps) st' h hinv
    · intro st cs st' h hinv
      match cs with
      | [] =>
        simp only [genCharsLoop] at h
        injection h with h
        subst h
        exact hinv
      | g :: rest =>
        obtain ⟨m, primes, gens, sinksL, cap⟩ := st
        simp only [genCharsLoop] at h
        by_cases hc : (gens.contains g) = true
        · rw [if_pos hc] at h
          exact ihGen _ rest st' h hinv
        · rw [if_neg hc] at h
          by_cases hgi : ((gens ++ [g]).contains (anti_cap g)) = true
          · rw [if_pos hgi] at h
            cases hi : integrate n ⟨m, primes, gens ++ [g], sinksL, cap⟩
                [[g, anti_cap g], [anti_cap g, g], []] with
            | error e => simp only [hi] at h; cases h
            | ok out =>
              obtain ⟨st2, w2⟩ := out
              simp only [hi] at h
              have hinvMid : sinkInv (⟨m, primes, gens ++ [g], sinksL, cap⟩ : GState) := hinv
              exact ihGen st2 rest st' h (ihInt _ _ (st2, w2) hi hinvMid)
          · rw [if_neg hgi] at h
            exact ihGen ⟨m, primes, gens ++ [g], sinksL, cap⟩ rest st' h hinv

theorem emptyStateInv (cap : Nat) : sinkInv (emptyState cap) :=
  ⟨fun v hv => absurd hv (List.not_mem_nil v), fun k v hk => by simp [dlookup] at hk⟩

theorem fillInGapsPreserves : ∀ (fuel : Nat) (st st' : GState),
    fillInGaps fuel st = .ok st' → sinkInv st → sinkInv st' := by
  intro fuel
  induction fuel with
  | zero => intro st st' h _; simp [fillInGaps] at h
  | succ n ih =>
    intro st st' h hinv
    simp only [fillInGaps] at h
    cases hd : determineFirstIncomplete st with
    | none =>
      simp only [hd] at h
      injection h with h
      subst h
      exact hinv
    | some p =>
      obtain ⟨sink, g⟩ := p
      simp only [hd] at h
      cases hi : integrate n st [sink ++ [g]] with
      | error e => simp only [hi] at h; cases h
      | ok out =>
        obtain ⟨st2, w2⟩ := out
        simp only [hi] at h
        exact ih st2 st' h ((enginePreserves n).1 st [sink ++ [g]] (st2, w2) hi hinv)

theorem integrateEachPreserves (fuel : Nat) : ∀ (cs : List Word) (st st' : GState),
    integrateEach fuel st cs = .ok st' → sinkInv st → sinkInv st' := by
  intro cs
  induction cs with
  | nil =>
    intro st st' h hinv
    simp only [integrateEach] at h
    injection h with h
    subst h
    exact hinv
  | cons c rest ih =>
    intro st st' h hinv
    simp only [integrateEach] at h
    cases hi : integrate fuel st [c] with
    | error e => simp only [hi] at h; cases h
    | ok out =>
      obtain ⟨st2, w2⟩ := out
      simp only [hi] at h
      exact ih st2 st' h ((enginePreserves fuel).1 st [c] (st2, w2) hi hinv)

theorem innerPairsPreserves (fuel : Nat) (s1 : Word) : ∀ (l : List Word) (st st' : GState),
    innerPairsLoop fuel s1 st l = .ok st' → sinkInv st → sinkInv st' := by
  intro l
  induction l with
  | nil =>
    intro st st' h hinv
    simp only [innerPairsLoop] at h
    injection h with h
    subst h
    exact hinv
  | cons s2 rest ih =>
    intro st st' h hinv
    simp only [innerPairsLoop] at h
    cases he : integrateEach fuel st (generate_contractions s1 s2) with
    | error e => simp only [he] at h; cases h
    | ok st2 =>
      simp only [he] at h
      exact ih st2 st' h (integrateEachPreserves fuel _ st st2 he hinv)

theorem outerPairsPreserves (fuel : Nat) : ∀ (l : List Word) (st st' : GState),
    outerPairsLoop fuel st l = .ok st' → sinkInv st → sinkInv st' := by
  intro l
  induction l with
  | nil =>
    intro st st' h hinv
    simp only [outerPairsLoop] at h
    injection h with h
    subst h
    exact hinv
  | cons s1 rest ih =>
    intro st st' h hinv
    simp only [outerPairsLoop] at h
    cases he : innerPairsLoop fuel s1 st (s1 :: rest) with
    | error e => simp only [he] at h; cases h
    | ok st2 =>
      simp only [he] at h
      exact ih st2 st' h (innerPairsPreserves fuel s1 _ st st2 he hinv)

theorem integrateCombinedPreserves : ∀ (fuel : Nat) (st st' : GState),
    integrateCombinedPrimeReductibles fuel st = .ok st' → sinkInv st → sinkInv st' := by
  intro fuel
  induction fuel with
  | zero => intro st st' h _; simp [integrateCombinedPrimeReductibles] at h
  | succ n ih =>
    intro st st' h hinv
    simp only [integrateCombinedPrimeReductibles] at h
    by_cases hc : isComplete st = true
    · rw [if_pos hc] at h
      injection h with h
      subst h
      exact hinv
    · rw [if_neg hc] at h
      cases ho : outerPairsLoop n st (sortByKey st.primeReductibles) with
      | error e => simp only [ho] at h; cases h
      | ok st2 =>
        simp only [ho] at h
        have h2 := outerPairsPreserves n _ st st2 ho hinv
        by_cases hq : listSetEq (sortByKey st.primeReductibles) st2.primeReductibles = true
        · rw [if_pos hq] at h
          injection h with h
          subst h
          exact h2
        · rw [if_neg hq] at h
          exact ih st2 st' h h2

theorem initLoopPreserves (fuel : Nat) : ∀ (initial : List (List Word)) (st st' : GState),
    initLoop fuel st initial = .ok st' → sinkInv st → sinkInv st' := by
  intro initial
  induction initial with
  | nil =>
    intro st st' h hinv
    simp only [initLoop] at h
    injection h with h
    subst h
    exact hinv
  | cons reps rest ih =>
    intro st st' h hinv
    simp only [initLoop] at h
    cases he : expandReps reps with
    | error e => simp only [he] at h; cases h
    | ok ws =>
      simp only [he] at h
      cases hi : integrate fuel st ws with
      | error e => simp only [hi] at h; cases h
      | ok out =>
        obtain ⟨st2, w2⟩ := out
        simp only [hi] at h
        exact ih st2 st' h ((enginePreserves fuel).1 st ws (st2, w2) hi hinv)

/-- C9 (amended): after a successful construction the tracked sink set is
exactly the image of `reps_to_sinks` — every sink is the stored value of some
key, every stored value is a sink — and hence every self-mapped key is a
sink.  (The converse — that every sink is a self-mapped key — fails; see the
counterexample.) -/
theorem c9_amended (fuel : Nat) (initial : List (List Word)) (cap : Nat) (ev : Bool)
    (st : GState) (h : groupInit fuel initial cap ev = .ok st) :
    (∀ v ∈ st.sinks, ∃ k, dlookup st.repsToSinks k = some v) ∧
    (∀ k v, dlookup st.repsToSinks k = some v → v ∈ st.sinks) ∧
    (∀ k, dlookup st.repsToSinks k = some k → k ∈ st.sinks) := by
  have hinv : sinkInv st := by
    unfold groupInit at h
    cases hi : integrate fuel (emptyState cap) [[]] with
    | error e => simp only [hi] at h; cases h
    | ok out =>
      obtain ⟨st1, w1⟩ := out
      simp only [hi] at h
      have h1 : sinkInv st1 :=
        (enginePreserves fuel).1 _ _ (st1, w1) hi (emptyStateInv cap)
      cases hl : initLoop fuel st1 initial with
      | error e => simp only [hl] at h; cases h
      | ok st2 =>
        simp only [hl] at h
        have h2 : sinkInv st2 := initLoopPreserves fuel initial st1 st2 hl h1
        cases ev with
        | false =>
          rw [if_neg Bool.false_ne_true] at h
          injection h with h
          subst h
          exact h2
        | true =>
          rw [if_pos rfl] at h
          cases hcp : integrateCombinedPrimeReductibles fuel st2 with
          | error e => simp only [hcp] at h; cases h
          | ok st3 =>
            simp only [hcp] at h
            exact fillInGapsPreserves fuel st3 st h
              (integrateCombinedPreserves fuel st2 st3 hcp h2)
  exact ⟨hinv.1, hinv.2, fun k hk => hinv.2 k k hk⟩

theorem c9_amended_witness :
    (∀ v ∈ (⟨[([], [])], [], [], [[]], 5⟩ : GState).sinks,
      ∃ k, dlookup (⟨[([], [])], [], [], [[]], 5⟩ : GState).repsToSinks k = some v) ∧
    (∀ k v, dlookup (⟨[([], [])], [], [], [[]], 5⟩ : GState).repsToSinks k = some v →
      v ∈ (⟨[([], [])], [], [], [[]], 5⟩ : GState).sinks) ∧
    (∀ k, dlookup (⟨[([], [])], [], [], [[]], 5⟩ : GState).repsToSinks k = some k →
      k ∈ (⟨[([], [])], [], [], [[]], 5⟩ : GState).sinks) :=
  c9_amended 20 [] 5 false ⟨[([], [])], [], [], [[]], 5⟩ (by decide)

/-! ## C2: generator character registration -/

theorem containsCharIffMem (l : List Char) (a : Char) : l.contains a = true ↔ a ∈ l := by
  simp

theorem mem_concatFold : ∀ (reps : List Word) (acc : Word) (c : Char),
    c ∈ reps.foldl (· ++ ·) acc ↔ c ∈ acc ∨ ∃ w ∈ reps, c ∈ w := by
  intro reps
  induction reps with
  | nil => intro acc c; simp
  | cons w ws ih =>
    intro acc c
    simp only [List.foldl_cons, ih, List.mem_append]
    constructor
    · rintro ((h | h) | ⟨w2, hw2, hc⟩)
      · exact Or.inl h
      · exact Or.inr ⟨w, List.mem_cons_self _ _, h⟩
      · exact Or.inr ⟨w2, List.mem_cons_of_mem _ hw2, hc⟩
    · rintro (h | ⟨w2, hw2, hc⟩)
      · exact Or.inl (Or.inl h)
      · rcases List.mem_cons.mp hw2 with rfl | hw3
        · exact Or.inl (Or.inr hc)
        · exact Or.inr ⟨w2, hw3, hc⟩

theorem mem_charFold : ∀ (cs : List Char) (acc : List Char) (c : Char),
    c ∈ cs.foldl (fun acc c => if acc.contains c then acc else acc ++ [c]) acc ↔
      c ∈ acc ∨ c ∈ cs := by
  intro cs
  induction cs with
  | nil => intro acc c; simp
  | cons x xs ih =>
    intro acc c
    simp only [List.foldl_cons]
    by_cases hx : acc.contains x = true
    · rw [if_pos hx, ih]
      constructor
      · rintro (h | h)
        · exact Or.inl h
        · exact Or.inr (List.mem_cons_of_mem _ h)
      · rintro (h | h)
        · exact Or.inl h
        · rcases List.mem_cons.mp h with rfl | h2
          · exact Or.inl ((containsCharIffMem _ _).mp hx)
          · exact Or.inr h2
    · rw [if_neg hx, ih]
      simp only [List.mem_append, List.mem_singleton]
      constructor
      · rintro ((h | h) | h)
        · exact Or.inl h
        · exact Or.inr (h ▸ List.mem_cons_self _ _)
        · exact Or.inr (List.mem_cons_of_mem _ h)
      · rintro (h | h)
        · exact Or.inl (Or.inl h)
        · rcases List.mem_cons.mp h with rfl | h2
          · exact Or.inl (Or.inr rfl)
          · exact Or.inr h2

theorem mem_charsOf (reps : List Word) (c : Char) :
    c ∈ charsOf reps ↔ ∃ w ∈ reps, c ∈ w := by
  unfold charsOf
  rw [mem_charFold, mem_concatFold]
  simp

theorem mem_applyRuleFold : ∀ (idxs : List Nat) (acc : List Word) (reduced s : Word)
    (len : Nat) (w : Word),
    w ∈ idxs.foldl (fun acc i => addIfAbsent acc (s.take i ++ reduced ++ s.drop (i + len))) acc →
    w ∈ acc ∨ ∃ i, w = s.take i ++ reduced ++ s.drop (i + len) := by
  intro idxs
  induction idxs with
  | nil => intro acc reduced s len w h; exact Or.inl h
  | cons i is ih =>
    intro acc reduced s len w h
    simp only [List.foldl_cons] at h
    rcases ih _ _ _ _ _ h with h2 | h2
    · rw [mem_addIfAbsent] at h2
      rcases h2 with h3 | rfl
      · exact Or.inl h3
      · exact Or.inr ⟨i, rfl⟩
    · exact Or.inr h2

theorem applyRuleChars (unreduced reduced s : Word) (w : Word)
    (hw : w ∈ apply_rule_once unreduced reduced s) :
    ∀ c ∈ w, c ∈ s ∨ c ∈ reduced := by
  intro c hc
  unfold apply_rule_once at hw
  rcases mem_applyRuleFold _ _ _ _ _ _ hw with h | ⟨i, rfl⟩
  · simp at h
  · rcases List.mem_append.mp hc with h2 | h2
    · rcases List.mem_append.mp h2 with h3 | h3
      · exact Or.inl (List.mem_of_mem_take h3)
      · exact Or.inr h3
    · exact Or.inl (List.mem_of_mem_drop h2)

theorem dlookupMem : ∀ (m : List (Word × Word)) (k v : Word),
    dlookup m k = some v → (k, v) ∈ m := by
  intro m k v
  induction m with
  | nil => intro h; simp [dlookup] at h
  | cons p rest ih =>
    obtain ⟨a, b⟩ := p
    intro h
    simp only [dlookup] at h
    by_cases ha : (a == k) = true
    · rw [if_pos ha] at h
      injection h with h
      subst h
      rw [← eq_of_beq ha]
      exact List.mem_cons_self _ _
    · rw [if_neg ha] at h
      exact List.mem_cons_of_mem _ (ih h)

theorem pySliceSub (w : Word) (a b : Nat) (c : Char) (h : c ∈ pySlice w a b) : c ∈ w :=
  List.mem_of_mem_take (List.mem_of_mem_drop h)

theorem shavedChars (s1 s2 : Word) (p : Word × Word) (hp : p ∈ get_most_shaveds s1 s2) :
    (∀ c ∈ p.1, c ∈ s1) ∧ (∀ c ∈ p.2, c ∈ s2) := by
  simp only [get_most_shaveds] at hp
  split at hp
  · rw [List.mem_singleton] at hp
    subst hp
    exact ⟨fun c hc => pySliceSub _ _ _ c hc, fun c hc => pySliceSub _ _ _ c hc⟩
  · split at hp
    · rw [List.mem_singleton] at hp
      subst hp
      exact ⟨fun c hc => pySliceSub _ _ _ c hc, fun c hc => pySliceSub _ _ _ c hc⟩
    · rcases List.mem_cons.mp hp with rfl | hp2
      · exact ⟨fun c hc => pySliceSub _ _ _ c hc, fun c hc => pySliceSub _ _ _ c hc⟩
      · rw [List.mem_singleton] at hp2
        subst hp2
        exact ⟨fun c hc => pySliceSub _ _ _ c hc, fun c hc => pySliceSub _ _ _ c hc⟩

theorem memDset : ∀ (m : List (Word × Word)) (k v : Word) (p : Word × Word),
    p ∈ dset m k v → p ∈ m ∨ p = (k, v) := by
  intro m k v
  induction m with
  | nil =>
    intro p hp
    exact Or.inr (List.mem_singleton.mp hp)
  | cons q rest ih =>
    obtain ⟨a, b⟩ := q
    intro p hp
    simp only [dset] at hp
    by_cases ha : (a == k) = true
    · rw [if_pos ha] at hp
      rcases List.mem_cons.mp hp with rfl | h2
      · exact Or.inr rfl
      · exact Or.inl (List.mem_cons_of_mem _ h2)
    · rw [if_neg ha] at hp
      rcases List.mem_cons.mp hp with rfl | h2
      · exact Or.inl (List.mem_cons_self _ _)
      · rcases ih p h2 with h3 | h3
        · exact Or.inl (List.mem_cons_of_mem _ h3)
        · exact Or.inr h3

theorem reachChars (P : Char → Prop) : ∀ (fuel : Nat),
    (∀ reps mapping primes acc out, findAllReachable fuel reps mapping primes acc = .ok out →
      (∀ w ∈ reps, ∀ c ∈ w, P c) → (∀ kv ∈ mapping, ∀ c ∈ kv.2, P c) →
      (∀ w ∈ acc, ∀ c ∈ w, P c) → ∀ w ∈ out, ∀ c ∈ w, P c) ∧
    (∀ rep pl mapping ap acc out, applyPrimesLoop fuel rep pl mapping ap acc = .ok out →
      (∀ c ∈ rep, P c) → (∀ kv ∈ mapping, ∀ c ∈ kv.2, P c) →
      (∀ w ∈ acc, ∀ c ∈ w, P c) → ∀ w ∈ out, ∀ c ∈ w, P c) := by
  intro fuel
  induction fuel with
  | zero =>
    constructor
    · intro reps mapping primes acc out h
      simp [findAllReachable] at h
    · intro rep pl mapping ap acc out h
      simp [applyPrimesLoop] at h
  | succ n ih =>
    constructor
    · intro reps mapping primes acc out h hreps hmap hacc
      match reps with
      | [] =>
        simp only [findAllReachable] at h
        injection h with h
        subst h
        exact hacc
      | rep :: rest =>
        simp only [findAllReachable] at h
        by_cases hc : (acc.contains rep) = true
        · rw [if_pos hc] at h
          exact ih.1 _ _ _ _ _ h (fun w hw => hreps w (List.mem_cons_of_mem _ hw)) hmap hacc
        · rw [if_neg hc] at h
          have hacc2 : ∀ w ∈ acc ++ [rep], ∀ c ∈ w, P c := by
            intro w hw
            rcases List.mem_append.mp hw with h2 | h2
            · exact hacc w h2
            · rw [List.mem_singleton] at h2
              subst h2
              exact hreps w (List.mem_cons_self _ _)
          cases hl : dlookup mapping rep with
          | some sink =>
            simp only [hl] at h
            have hsink : ∀ c ∈ sink, P c := hmap (rep, sink) (dlookupMem _ _ _ hl)
            have hacc3 : ∀ w ∈ addIfAbsent (acc ++ [rep]) sink, ∀ c ∈ w, P c := by
              intro w hw
              rcases (mem_addIfAbsent _ _ _).mp hw with h2 | rfl
              · exact hacc2 w h2
              · exact hsink
            exact ih.1 _ _ _ _ _ h (fun w hw => hreps w (List.mem_cons_of_mem _ hw)) hmap hacc3
          | none =>
            simp only [hl] at h
            cases hap : applyPrimesLoop n rep primes mapping primes (acc ++ [rep]) with
            | error e => simp only [hap] at h; cases h
            | ok acc2 =>
              simp only [hap] at h
              have hacc3 := ih.2 _ _ _ _ _ _ hap (hreps rep (List.mem_cons_self _ _)) hmap hacc2
              exact ih.1 _ _ _ _ _ h (fun w hw => hreps w (List.mem_cons_of_mem _ hw)) hmap hacc3
    · intro rep pl mapping ap acc out h hrep hmap hacc
      match pl with
      | [] =>
        simp only [applyPrimesLoop] at h
        injection h with h
        subst h
        exact hacc
      | left :: prest =>
        simp only [applyPrimesLoop] at h
        cases hl : dlookup mapping left with
        | none => simp only [hl] at h; cases h
        | some right =>
          simp only [hl] at h
          cases hfr : findAllReachable n (apply_rule_once left right rep) mapping ap acc with
          | error e => simp only [hfr] at h; cases h
          | ok acc2 =>
            simp only [hfr] at h
            have hright : ∀ c ∈ right, P c := hmap (left, right) (dlookupMem _ _ _ hl)
            have hnew : ∀ w ∈ apply_rule_once left right rep, ∀ c ∈ w, P c := by
              intro w hw c hc
              rcases applyRuleChars left right rep w hw c hc with h2 | h2
              · exact hrep c h2
              · exact hright c h2
            have hacc2 := ih.1 _ _ _ _ _ hfr hnew hmap hacc
            exact ih.2 _ _ _ _ _ _ h hrep hmap hacc2

/-- Every character of every stored key, stored value, prime reductible and
sink is a registered generator character. -/
def gensClosed (st : GState) : Prop :=
  (∀ p ∈ st.repsToSinks, (∀ c ∈ p.1, c ∈ st.generatorChars) ∧
    ∀ c ∈ p.2, c ∈ st.generatorChars) ∧
  (∀ w ∈ st.primeReductibles, ∀ c ∈ w, c ∈ st.generatorChars) ∧
  (∀ w ∈ st.sinks, ∀ c ∈ w, c ∈ st.generatorChars)

theorem primeRecheckSubset (fuel : Nat) (rep : Word) :
    ∀ (snap : List Word) (st st' : GState),
      primeRecheckLoop fuel rep st snap = .ok st' →
      ∀ q ∈ st'.primeReductibles, q ∈ st.primeReductibles := by
  intro snap
  induction snap with
  | nil =>
    intro st st' h
    simp only [primeRecheckLoop] at h
    injection h with h
    subst h
    exact fun q hq => hq
  | cons p ps ih =>
    intro st st' h
    obtain ⟨m, primes, gens, sinksL, cap⟩ := st
    simp only [primeRecheckLoop] at h
    by_cases hk : keyLtB rep p = true
    · simp only [hk, Bool.not_true, Bool.false_eq_true, if_false] at h
      cases hs : shouldBePrimeReductible fuel ⟨m, primes, gens, sinksL, cap⟩ p with
      | error e => simp only [hs] at h; cases h
      | ok stillPrime =>
        simp only [hs] at h
        cases stillPrime with
        | true =>
          simp only [if_true] at h
          exact ih _ st' h
        | false =>
          simp only [Bool.false_eq_true, if_false] at h
          intro q hq
          exact ((mem_removeElem _ _ _).mp (ih _ st' h q hq)).1
    · rw [Bool.not_eq_true] at hk
      simp only [hk, Bool.not_false, if_true] at h
      exact ih _ st' h

theorem processClosure (fuel : Nat) (st st' : GState) (rep : Word)
    (h : processAsPotentialPrimeReductible fuel st rep = .ok st')
    (hrep : ∀ c ∈ rep, c ∈ st.generatorChars) (hcl : gensClosed st) : gensClosed st' := by
  obtain ⟨f1, f2, f3, f4⟩ := processFrame fuel st st' rep h
  obtain ⟨m, primes, gens, sinksL, cap⟩ := st
  unfold processAsPotentialPrimeReductible at h
  cases hs : shouldBePrimeReductible fuel ⟨m, primes, gens, sinksL, cap⟩ rep with
  | error e => rw [hs] at h; cases h
  | ok should =>
    rw [hs] at h
    cases should with
    | false =>
      simp only [Bool.not_false, if_true] at h
      injection h with h
      subst h
      exact hcl
    | true =>
      simp only [Bool.not_true, Bool.false_eq_true, if_false] at h
      have hsub := primeRecheckSubset fuel rep _ _ st' h
      refine ⟨?_, ?_, ?_⟩
      · intro p hp
        rw [f1] at hp
        have := hcl.1 p hp
        rw [f2]
        exact this
      · intro w hw c hc
        have hw2 : w ∈ addIfAbsent primes rep := hsub w hw
        rw [f2]
        rcases (mem_addIfAbsent _ _ _).mp hw2 with h2 | rfl
        · exact hcl.2.1 w h2 c hc
        · exact hrep c hc
      · intro w hw
        rw [f3] at hw
        have := hcl.2.2 w hw
        rw [f2]
        exact this

theorem redirectClosure (fuel : Nat) (oldV newV : Word) :
    ∀ (ks : List Word) (st st' : GState),
      redirectLoop fuel oldV newV st ks = .ok st' →
      gensClosed st → (∀ c ∈ newV, c ∈ st.generatorChars) →
      gensClosed st' ∧ st'.generatorChars = st.generatorChars := by
  intro ks
  induction ks with
  | nil =>
    intro st st' h hcl hnew
    simp only [redirectLoop] at h
    injection h with h
    subst h
    exact ⟨hcl, rfl⟩
  | cons k₀ rest ih =>
    intro st st' h hcl hnew
    obtain ⟨m, primes, gens, sinksL, cap⟩ := st
    simp only [redirectLoop] at h
    cases hl : dlookup m k₀ with
    | none =>
      simp only [hl] at h
      exact ih _ _ h hcl hnew
    | some v =>
      simp only [hl] at h
      by_cases hv : (v == oldV) = true
      · rw [if_pos hv] at h
        cases hp : processAsPotentialPrimeReductible fuel
            ⟨dset m k₀ newV, primes, gens, sinksL, cap⟩ k₀ with
        | error e => simp only [hp] at h; cases h
        | ok st₂ =>
          simp only [hp] at h
          have hk₀ : ∀ c ∈ k₀, c ∈ gens := (hcl.1 (k₀, v) (dlookupMem _ _ _ hl)).1
          have hclD : gensClosed (⟨dset m k₀ newV, primes, gens, sinksL, cap⟩ : GState) := by
            refine ⟨?_, hcl.2.1, hcl.2.2⟩
            intro p hp2
            rcases memDset _ _ _ _ hp2 with h2 | rfl
            · exact hcl.1 p h2
            · exact ⟨hk₀, hnew⟩
          have hclP := processClosure fuel _ st₂ k₀ hp hk₀ hclD
          obtain ⟨g1, g2, g3, g4⟩ := processFrame fuel _ st₂ k₀ hp
          obtain ⟨hcl', he⟩ := ih st₂ st' h hclP (by rw [g2]; exact hnew)
          exact ⟨hcl', by rw [he, g2]⟩
      · rw [if_neg hv] at h
        exact ih _ _ h hcl hnew

theorem setForGensFrame (fuel : Nat) (st st' : GState) (oldV newV : Word)
    (h : setForEntriesWithValue fuel st oldV newV = .ok st') :
    st'.generatorChars = st.generatorChars := by
  unfold setForEntriesWithValue at h
  by_cases hg : (oldV == newV || !(st.sinks.contains oldV)) = true
  · rw [if_pos hg] at h
    injection h with h
    subst h
    rfl
  · rw [if_neg hg] at h
    have hne : oldV ≠ newV := by
      intro he
      exact hg (by rw [he]; simp)
    cases hr : redirectLoop fuel oldV newV st (st.repsToSinks.map Prod.fst) with
    | error e => rw [hr] at h; cases h
    | ok stR =>
      rw [hr] at h
      obtain ⟨m2, primes2, gens2, sinks2, cap2⟩ := stR
      obtain ⟨e1, _, _, _, _, _⟩ :=
        redirectLoopSpec fuel oldV newV hne (st.repsToSinks.map Prod.fst) st _ hr
      injection h with h
      subst h
      exact e1

theorem setForClosure (fuel : Nat) (st st' : GState) (oldV newV : Word)
    (h : setForEntriesWithValue fuel st oldV newV = .ok st')
    (hcl : gensClosed st) (hnew : ∀ c ∈ newV, c ∈ st.generatorChars) : gensClosed st' := by
  unfold setForEntriesWithValue at h
  by_cases hg : (oldV == newV || !(st.sinks.contains oldV)) = true
  · rw [if_pos hg] at h
    injection h with h
    subst h
    exact hcl
  · rw [if_neg hg] at h
    cases hr : redirectLoop fuel oldV newV st (st.repsToSinks.map Prod.fst) with
    | error e => rw [hr] at h; cases h
    | ok stR =>
      rw [hr] at h
      obtain ⟨hclR, heR⟩ := redirectClosure fuel oldV newV _ st stR hr hcl hnew
      obtain ⟨m2, primes2, gens2, sinks2, cap2⟩ := stR
      injection h with h
      subst h
      refine ⟨hclR.1, hclR.2.1, ?_⟩
      intro w hw
      rcases (mem_addIfAbsent _ _ _).mp hw with h2 | rfl
      · exact hclR.2.2 w ((mem_removeElem _ _ _).mp h2).1
      · have he2 : gens2 = st.generatorChars := heR
        rw [he2]
        exact hnew

theorem setEntryGensFrame (fuel : Nat) (st st' : GState) (rep newReduced : Word)
    (h : setEntry fuel st rep newReduced = .ok st') :
    st'.generatorChars = st.generatorChars := by
  obtain ⟨m, primes, gens, sinksL, cap⟩ := st
  unfold setEntry at h
  cases hl : dlookup m rep with
  | some known =>
    simp only [hl] at h
    by_cases he : (newReduced == known) = true
    · rw [if_pos he] at h
      injection h with h
      subst h
      rfl
    · rw [if_neg he] at h
      exact setForGensFrame fuel _ st' _ _ h
  | none =>
    simp only [hl] at h
    by_cases hrn : (rep == newReduced) = true
    · rw [if_pos hrn] at h
      by_cases hcap : (addIfAbsent sinksL newReduced).length > cap
      · rw [if_pos hcap] at h
        cases h
      · rw [if_neg hcap] at h
        injection h with h
        subst h
        rfl
    · rw [if_neg hrn] at h
      exact (processFrame fuel _ st' rep h).2.1

theorem setEntryClosure (fuel : Nat) (st st' : GState) (rep newReduced : Word)
    (h : setEntry fuel st rep newReduced = .ok st')
    (hcl : gensClosed st) (hrep : ∀ c ∈ rep, c ∈ st.generatorChars)
    (hnewR : ∀ c ∈ newReduced, c ∈ st.generatorChars) : gensClosed st' := by
  obtain ⟨m, primes, gens, sinksL, cap⟩ := st
  unfold setEntry at h
  cases hl : dlookup m rep with
  | some known =>
    simp only [hl] at h
    by_cases he : (newReduced == known) = true
    · rw [if_pos he] at h
      injection h with h
      subst h
      exact hcl
    · rw [if_neg he] at h
      have hknown : ∀ c ∈ known, c ∈ gens := (hcl.1 (rep, known) (dlookupMem _ _ _ hl)).2
      by_cases hlt : pairLtB (dict_sort_key_len newReduced) (dict_sort_key_len known) = true
      · rw [if_pos hlt] at h
        exact setForClosure fuel _ st' _ _ h hcl hnewR
      · rw [if_neg hlt] at h
        exact setForClosure fuel _ st' _ _ h hcl hknown
  | none =>
    simp only [hl] at h
    have hclMid : gensClosed
        (⟨m ++ [(rep, newReduced)], primes, gens, addIfAbsent sinksL newReduced, cap⟩ :
          GState) := by
      refine ⟨?_, hcl.2.1, ?_⟩
      · intro p hp
        rcases List.mem_append.mp hp with h2 | h2
        · exact hcl.1 p h2
        · rw [List.mem_singleton] at h2
          subst h2
          exact ⟨hrep, hnewR⟩
      · intro w hw
        rcases (mem_addIfAbsent _ _ _).mp hw with h2 | rfl
        · exact hcl.2.2 w h2
        · exact hnewR
    by_cases hrn : (rep == newReduced) = true
    · rw [if_pos hrn] at h
      by_cases hcap : (addIfAbsent sinksL newReduced).length > cap
      · rw [if_pos hcap] at h
        cases h
      · rw [if_neg hcap] at h
        injection h with h
        subst h
        exact hclMid
    · rw [if_neg hrn] at h
      exact processClosure fuel _ st' rep h hrep hclMid

theorem engineGens : ∀ (fuel : Nat),
    (∀ st reps out, integrate fuel st reps = .ok out → gensClosed st →
      gensClosed out.1 ∧
      (∀ ch, ch ∈ out.1.generatorChars ↔ ch ∈ st.generatorChars ∨ ∃ w ∈ reps, ch ∈ w)) ∧
    (∀ st mr reps st', integrateLoop fuel st mr reps = .ok st' → gensClosed st →
      (∀ w ∈ reps, ∀ c ∈ w, c ∈ st.generatorChars) → (∀ c ∈ mr, c ∈ st.generatorChars) →
      gensClosed st' ∧ (∀ ch, ch ∈ st'.generatorChars ↔ ch ∈ st.generatorChars)) ∧
    (∀ st rep pairs st', shavedLoop fuel st rep pairs = .ok st' → gensClosed st →
      (∀ p ∈ pairs, (∀ c ∈ p.1, c ∈ st.generatorChars) ∧ ∀ c ∈ p.2, c ∈ st.generatorChars) →
      gensClosed st' ∧ (∀ ch, ch ∈ st'.generatorChars ↔ ch ∈ st.generatorChars)) ∧
    (∀ st reps st', updateGeneratorChars fuel st reps = .ok st' → gensClosed st →
      gensClosed st' ∧
      (∀ ch, ch ∈ st'.generatorChars ↔ ch ∈ st.generatorChars ∨ ∃ w ∈ reps, ch ∈ w)) ∧
    (∀ st cs st', genCharsLoop fuel st cs = .ok st' → gensClosed st →
      gensClosed st' ∧
      (∀ ch, ch ∈ st'.generatorChars ↔ ch ∈ st.generatorChars ∨ ch ∈ cs)) := by
  intro fuel
  induction fuel with
  | zero =>
    refine ⟨?_, ?_, ?_, ?_, ?_⟩
    · intro st reps out h
      simp [integrate] at h
    · intro st mr reps st' h
      simp [integrateLoop] at h
    · intro st rep pairs st' h
      simp [shavedLoop] at h
    · intro st reps st' h
      simp [updateGeneratorChars] at h
    · intro st cs st' h
      simp [genCharsLoop] at h
  | succ n ih =>
    obtain ⟨ihInt, ihLoop, ihShaved, ihUpd, ihGen⟩ := ih
    refine ⟨?_, ?_, ?_, ?_, ?_⟩
    · intro st reps out h hcl
      simp only [integrate] at h
      cases hu : updateGeneratorChars n st reps with
      | error e => simp only [hu] at h; cases h
      | ok st1 =>
        simp only [hu] at h
        obtain ⟨hcl1, hiff1⟩ := ihUpd st reps st1 hu hcl
        cases hf : findAllReachable n reps st1.repsToSinks st1.primeReductibles [] with
        | error e => simp only [hf] at h; cases h
        | ok allR =>
          simp only [hf] at h
          have hallR : ∀ w ∈ allR, ∀ c ∈ w, c ∈ st1.generatorChars := by
            refine (reachChars (· ∈ st1.generatorChars) n).1 reps st1.repsToSinks
              st1.primeReductibles [] allR hf ?_ ?_ ?_
            · intro w hw c hc
              exact (hiff1 c).mpr (Or.inr ⟨w, hw, hc⟩)
            · intro kv hkv
              exact (hcl1.1 kv hkv).2
            · intro w hw
              simp at hw
          cases hm : minByKey allR with
          | none => simp only [hm] at h; cases h
          | some mostRed =>
            simp only [hm] at h
            cases hil : integrateLoop n st1 mostRed allR with
            | error e => simp only [hil] at h; cases h
            | ok st2 =>
              simp only [hil] at h
              injection h with h
              subst h
              obtain ⟨hcl2, hiff2⟩ := ihLoop st1 mostRed allR st2 hil hcl1 hallR
                (hallR mostRed (minByKey_spec allR mostRed hm).1)
              exact ⟨hcl2, fun ch => (hiff2 ch).trans (hiff1 ch)⟩
    · intro st mr reps st' h hcl hreps hmr
      match reps with
      | [] =>
        simp only [integrateLoop] at h
        injection h with h
        subst h
        exact ⟨hcl, fun ch => Iff.rfl⟩
      | rep :: rest =>
        simp only [integrateLoop] at h
        cases hse : setEntry n st rep mr with
        | error e => simp only [hse] at h; cases h
        | ok st1 =>
          simp only [hse] at h
          have hrepC : ∀ c ∈ rep, c ∈ st.generatorChars := hreps rep (List.mem_cons_self _ _)
          have hcl1 : gensClosed st1 := setEntryClosure n st st1 rep mr hse hcl hrepC hmr
          have ge : st1.generatorChars = st.generatorChars := setEntryGensFrame n st st1 rep mr hse
          have hreps1 : ∀ w ∈ rest, ∀ c ∈ w, c ∈ st1.generatorChars := by
            intro w hw c hc
            rw [ge]
            exact hreps w (List.mem_cons_of_mem _ hw) c hc
          have hmr1 : ∀ c ∈ mr, c ∈ st1.generatorChars := by
            intro c hc
            rw [ge]
            exact hmr c hc
          by_cases hr : (rep == mr) = true
          · rw [if_pos hr] at h
            obtain ⟨hcl2, hiff2⟩ := ihLoop st1 mr rest st' h hcl1 hreps1 hmr1
            exact ⟨hcl2, fun ch => (hiff2 ch).trans (by rw [ge])⟩
          · rw [if_neg hr] at h
            cases hsh : shavedLoop n st1 rep (get_most_shaveds rep mr) with
            | error e => simp only [hsh] at h; cases h
            | ok st2 =>
              simp only [hsh] at h
              have hpairs : ∀ p ∈ get_most_shaveds rep mr,
                  (∀ c ∈ p.1, c ∈ st1.generatorChars) ∧
                    ∀ c ∈ p.2, c ∈ st1.generatorChars := by
                intro p hp
                obtain ⟨h1, h2⟩ := shavedChars rep mr p hp
                constructor
                · intro c hc
                  rw [ge]
                  exact hrepC c (h1 c hc)
                · intro c hc
                  rw [ge]
                  exact hmr c (h2 c hc)
              obtain ⟨hcl2, hiff2⟩ := ihShaved st1 rep _ st2 hsh hcl1 hpairs
              have hreps2 : ∀ w ∈ rest, ∀ c ∈ w, c ∈ st2.generatorChars := by
                intro w hw c hc
                exact (hiff2 c).mpr (hreps1 w hw c hc)
              have hmr2 : ∀ c ∈ mr, c ∈ st2.generatorChars :=
                fun c hc => (hiff2 c).mpr (hmr1 c hc)
              obtain ⟨hcl3, hiff3⟩ := ihLoop st2 mr rest st' h hcl2 hreps2 hmr2
              exact ⟨hcl3, fun ch => ((hiff3 ch).trans (hiff2 ch)).trans (by rw [ge])⟩
    · intro st rep pairs st' h hcl hpairs
      match pairs with
      | [] =>
        simp only [shavedLoop] at h
        injection h with h
        subst h
        exact ⟨hcl, fun ch => Iff.rfl⟩
      | (rs, ms) :: rest =>
        simp only [shavedLoop] at h
        by_cases hr : (rep == rs) = true
        · rw [if_pos hr] at h
          exact ihShaved st rep rest st' h hcl
            (fun p hp => hpairs p (List.mem_cons_of_mem _ hp))
        · rw [if_neg hr] at h
          cases hi : integrate n st [rs, ms] with
          | error e => simp only [hi] at h; cases h
          | ok out =>
            obtain ⟨st2, w2⟩ := out
            simp only [hi] at h
            obtain ⟨hcl2, hiff2⟩ := ihInt st [rs, ms] (st2, w2) hi hcl
            have hhead := hpairs (rs, ms) (List.mem_cons_self _ _)
            have hiff2' : ∀ ch, ch ∈ st2.generatorChars ↔ ch ∈ st.generatorChars := by
              intro ch
              have hA : ch ∈ st2.generatorChars ↔ ch ∈ st.generatorChars ∨
                  ∃ w ∈ [rs, ms], ch ∈ w := hiff2 ch
              rw [hA]
              constructor
              · rintro (h2 | ⟨w, hw, hc2⟩)
                · exact h2
                · rcases List.mem_cons.mp hw with rfl | hw2
                  · exact hhead.1 ch hc2
                  · rw [List.mem_singleton] at hw2
                    subst hw2
                    exact hhead.2 ch hc2
              · exact Or.inl
            have hrest2 : ∀ p ∈ rest, (∀ c ∈ p.1, c ∈ st2.generatorChars) ∧
                ∀ c ∈ p.2, c ∈ st2.generatorChars := by
              intro p hp
              obtain ⟨q1, q2⟩ := hpairs p (List.mem_cons_of_mem _ hp)
              exact ⟨fun c hc => (hiff2' c).mpr (q1 c hc),
                fun c hc => (hiff2' c).mpr (q2 c hc)⟩
            obtain ⟨hcl3, hiff3⟩ := ihShaved st2 rep rest st' h hcl2 hrest2
            exact ⟨hcl3, fun ch => (hiff3 ch).trans (hiff2' ch)⟩
    · intro st reps st' h hcl
      simp only [updateGeneratorChars] at h
      obtain ⟨hcl2, hiff2⟩ := ihGen st (charsOf reps) st' h hcl
      refine ⟨hcl2, fun ch => (hiff2 ch).trans ?_⟩
      rw [mem_charsOf]
    · intro st cs st' h hcl
      match cs with
      | [] =>
        simp only [genCharsLoop] at h
        injection h with h
        subst h
        exact ⟨hcl, fun ch => by simp⟩
      | g :: rest =>
        obtain ⟨m, primes, gens, sinksL, cap⟩ := st
        simp only [genCharsLoop] at h
        by_cases hc : (gens.contains g) = true
        · rw [if_pos hc] at h
          obtain ⟨hcl2, hiff2⟩ := ihGen _ rest st' h hcl
          refine ⟨hcl2, fun ch => (hiff2 ch).trans ?_⟩
          constructor
          · rintro (h2 | h2)
            · exact Or.inl h2
            · exact Or.inr (List.mem_cons_of_mem _ h2)
          · rintro (h2 | h2)
            · exact Or.inl h2
            · rcases List.mem_cons.mp h2 with rfl | h3
              · exact Or.inl ((containsCharIffMem _ _).mp hc)
              · exact Or.inr h3
        · rw [if_neg hc] at h
          have hmono : ∀ (x : Char), x ∈ gens → x ∈ gens ++ [g] :=
            fun x hx => List.mem_append_left _ hx
          have hcl₁ : gensClosed (⟨m, primes, gens ++ [g], sinksL, cap⟩ : GState) :=
            ⟨fun p hp => ⟨fun c hc2 => hmono c ((hcl.1 p hp).1 c hc2),
              fun c hc2 => hmono c ((hcl.1 p hp).2 c hc2)⟩,
             fun w hw c hc2 => hmono c (hcl.2.1 w hw c hc2),
             fun w hw c hc2 => hmono c (hcl.2.2 w hw c hc2)⟩
          by_cases hgi : ((gens ++ [g]).contains (anti_cap g)) = true
          · rw [if_pos hgi] at h
            cases hi : integrate n ⟨m, primes, gens ++ [g], sinksL, cap⟩
                [[g, anti_cap g], [anti_cap g, g], []] with
            | error e => simp only [hi] at h; cases h
            | ok out =>
              obtain ⟨st2, w2⟩ := out
              simp only [hi] at h
              obtain ⟨hcl2, hiff2⟩ := ihInt _ _ (st2, w2) hi hcl₁
              have hiff2' : ∀ ch, ch ∈ st2.generatorChars ↔ ch ∈ gens ++ [g] := by
                intro ch
                have hA : ch ∈ st2.generatorChars ↔ ch ∈ gens ++ [g] ∨
                    ∃ w ∈ [[g, anti_cap g], [anti_cap g, g], ([] : Word)], ch ∈ w :=
                  hiff2 ch
                rw [hA]
                constructor
                · rintro (h2 | ⟨w, hw, hc2⟩)
                  · exact h2
                  · rcases List.mem_cons.mp hw with rfl | hw2
                    · rcases List.mem_cons.mp hc2 with rfl | hc3
                      · exact List.mem_append_right _ (List.mem_singleton.mpr rfl)
                      · rw [List.mem_singleton] at hc3
                        subst hc3
                        exact (containsCharIffMem _ _).mp hgi
                    · rcases List.mem_cons.mp hw2 with rfl | hw3
                      · rcases List.mem_cons.mp hc2 with rfl | hc3
                        · exact (containsCharIffMem _ _).mp hgi
                        · rw [List.mem_singleton] at hc3
                          subst hc3
                          exact List.mem_append_right _ (List.mem_singleton.mpr rfl)
                      · rw [List.mem_singleton] at hw3
                        subst hw3
                        simp at hc2
                · exact Or.inl
              obtain ⟨hcl3, hiff3⟩ := ihGen st2 rest st' h hcl2
              refine ⟨hcl3, fun ch => ?_⟩
              rw [hiff3 ch, hiff2' ch]
              constructor
              · rintro (h2 | h2)
                · rcases List.mem_append.mp h2 with h3 | h3
                  · exact Or.inl h3
                  · rw [List.mem_singleton] at h3
                    subst h3
                    exact Or.inr (List.mem_cons_self _ _)
                · exact Or.inr (List.mem_cons_of_mem _ h2)
              · rintro (h2 | h2)
                · exact Or.inl (List.mem_append_left _ h2)
                · rcases List.mem_cons.mp h2 with rfl | h3
                  · exact Or.inl (List.mem_append_right _ (List.mem_singleton.mpr rfl))
                  · exact Or.inr h3
          · rw [if_neg hgi] at h
            obtain ⟨hcl2, hiff2⟩ := ihGen _ rest st' h hcl₁
            refine ⟨hcl2, fun ch => ?_⟩
            have hB : ch ∈ st'.generatorChars ↔ ch ∈ gens ++ [g] ∨ ch ∈ rest := hiff2 ch
            rw [hB]
            constructor
            · rintro (h2 | h2)
              · rcases List.mem_append.mp h2 with h3 | h3
                · exact Or.inl h3
                · rw [List.mem_singleton] at h3
                  subst h3
                  exact Or.inr (List.mem_cons_self _ _)
              · exact Or.inr (List.mem_cons_of_mem _ h2)
            · rintro (h2 | h2)
              · exact Or.inl (List.mem_append_left _ h2)
              · rcases List.mem_cons.mp h2 with rfl | h3
                · exact Or.inl (List.mem_append_right _ (List.mem_singleton.mpr rfl))
                · exact Or.inr h3

/-- The final state of `Group([["gG"]], evaluate=False)`. -/
def c2WitState : GState :=
  ⟨[([], []), (['G', 'g'], []), (['g', 'G'], [])],
   [['G', 'g'], ['g', 'G']], ['g', 'G'], [[]], 50⟩

/-- C2 (amended): integrating representations registers exactly the generator
characters that occur in them — in particular a character's case-flip
counterpart is not registered on first encounter: for every character-closed
state the registered set after `_integrate` is the old set plus precisely the
characters of the supplied words.  The inverse triple is integrated only when
both cases occur among supplied words, as on `Group([["gG"]], evaluate=False)`,
where `gG`, `Gg` and the empty word all map to the empty canonical form. -/
theorem c2_amended :
    (∀ fuel st reps out, integrate fuel st reps = .ok out → gensClosed st →
      ∀ ch, ch ∈ out.1.generatorChars ↔ ch ∈ st.generatorChars ∨ ∃ w ∈ reps, ch ∈ w) ∧
    (groupInit 50 [[strW "gG"]] 50 false = .ok c2WitState ∧
      dlookup c2WitState.repsToSinks (strW "gG") = some [] ∧
      dlookup c2WitState.repsToSinks (strW "Gg") = some [] ∧
      dlookup c2WitState.repsToSinks [] = some []) := by
  refine ⟨?_, by decide, by decide, by decide, by decide⟩
  intro fuel st reps out h hcl
  exact ((engineGens fuel).1 st reps out h hcl).2

theorem c2_amended_witness :
    ∀ ch, ch ∈ (⟨[(['g'], ['g'])], [], ['g'], [['g']], 5⟩ : GState).generatorChars ↔
      ch ∈ (emptyState 5).generatorChars ∨ ∃ w ∈ [strW "g"], ch ∈ w :=
  c2_amended.1 30 (emptyState 5) [strW "g"]
    ((⟨[(['g'], ['g'])], [], ['g'], [['g']], 5⟩ : GState), ['g']) (by decide)
    (by unfold gensClosed; decide)

end GroupSandbox
